import Mathlib

/-!
Verification of the codemap tree-state engine (src/codemap.py).

The Python source is shallowly embedded: the mutable `TreeNode` graph becomes
a purely functional rose tree (`PTree`/`PForest`), parent-pointer walks become
path-indexed updates (a node is addressed by the list of child indices from
the root, and `update_token_count`, which walks `parent` pointers to the root,
becomes an update of every node on the corresponding path prefix chain).
Filesystem reads, `tiktoken` token counting and the random pseudonym generator
are oracles passed as function parameters.  Python `int` is embedded as `Int`.
-/

/-! ### Generic string and list helpers -/

/-- Python `str.lower()` on the code's ASCII names (`Char.toLower` per char). -/
def pyLower (s : String) : String := ⟨s.data.map Char.toLower⟩

/-- Lexicographic `≤` on strings as lists of characters, by code point:
Python's `str` ordering restricted to what the code compares. -/
def lexLE : List Char → List Char → Bool
  | [], _ => true
  | _ :: _, [] => false
  | a :: as, b :: bs =>
    if a.toNat < b.toNat then true
    else if b.toNat < a.toNat then false
    else lexLE as bs

theorem lexLE_total : ∀ a b, lexLE a b = false → lexLE b a = true := by
  intro a
  induction a with
  | nil => intro b h; simp [lexLE] at h
  | cons x xs ih =>
    intro b h
    cases b with
    | nil => simp [lexLE]
    | cons y ys =>
      simp only [lexLE] at h ⊢
      by_cases h1 : x.toNat < y.toNat
      · simp [h1] at h
      · by_cases h2 : y.toNat < x.toNat
        · simp [h2]
        · simp [h1, h2] at h ⊢
          exact ih ys h

theorem lexLE_trans : ∀ a b c, lexLE a b = true → lexLE b c = true → lexLE a c = true := by
  intro a
  induction a with
  | nil => intro b c _ _; simp [lexLE]
  | cons x xs ih =>
    intro b c hab hbc
    cases b with
    | nil => simp [lexLE] at hab
    | cons y ys =>
      cases c with
      | nil => simp [lexLE] at hbc
      | cons z zs =>
        simp only [lexLE] at hab hbc ⊢
        rcases Nat.lt_trichotomy x.toNat y.toNat with h1 | h1 | h1
        · rcases Nat.lt_trichotomy y.toNat z.toNat with h2 | h2 | h2
          · simp [Nat.lt_trans h1 h2]
          · simp [h2 ▸ h1]
          · simp [h1, Nat.lt_asymm h1] at hab
            by_cases h3 : x.toNat < z.toNat
            · simp [h3]
            · simp [h2, Nat.lt_asymm h2] at hbc
        · rw [← h1] at hbc
          simp [h1, Nat.lt_irrefl] at hab
          rcases Nat.lt_trichotomy x.toNat z.toNat with h2 | h2 | h2
          · simp [h2]
          · simp [h2, Nat.lt_irrefl] at hbc ⊢
            exact ih ys zs hab hbc
          · simp [Nat.lt_asymm h2, h2] at hbc
        · simp [Nat.lt_asymm h1, h1] at hab

/-- Python substring test `pat in hay` (used by `FileFilter.is_ignored`). -/
def startsWithL : List Char → List Char → Bool
  | [], _ => true
  | _ :: _, [] => false
  | a :: as, b :: bs => a == b && startsWithL as bs

def hasSub (pat hay : List Char) : Bool :=
  if startsWithL pat hay then true
  else
    match hay with
    | [] => false
    | _ :: rest => hasSub pat rest

/-- Stable insertion sort: Python's stable `list.sort` is extensionally any
stable sort by the same comparison, which insertion sort is. -/
def insSorted (le : α → α → Bool) (a : α) : List α → List α
  | [] => [a]
  | b :: bs => if le a b then a :: b :: bs else b :: insSorted le a bs

def insSort (le : α → α → Bool) : List α → List α
  | [] => []
  | a :: as => insSorted le a (insSort le as)

theorem insSorted_perm (le : α → α → Bool) (a : α) (l : List α) :
    (insSorted le a l).Perm (a :: l) := by
  induction l with
  | nil => simp [insSorted]
  | cons b bs ih =>
    simp only [insSorted]
    split
    · exact List.Perm.refl _
    · exact (ih.cons b).trans (List.Perm.swap a b bs)

theorem insSort_perm (le : α → α → Bool) (l : List α) : (insSort le l).Perm l := by
  induction l with
  | nil => simp [insSort]
  | cons a as ih => exact (insSorted_perm le a (insSort le as)).trans (ih.cons a)

theorem insSort_ne_nil (le : α → α → Bool) {l : List α} (h : l ≠ []) :
    insSort le l ≠ [] := by
  intro hx
  have hp := insSort_perm le l
  rw [hx] at hp
  exact h (List.nil_perm.mp hp)

theorem insSorted_pairwise (le : α → α → Bool)
    (htot : ∀ a b, le a b = false → le b a = true)
    (htrans : ∀ a b c, le a b = true → le b c = true → le a c = true)
    (a : α) (l : List α) (h : l.Pairwise (fun x y => le x y = true)) :
    (insSorted le a l).Pairwise (fun x y => le x y = true) := by
  induction l with
  | nil => simp [insSorted]
  | cons b bs ih =>
    simp only [insSorted]
    rcases List.pairwise_cons.mp h with ⟨hb, hbs⟩
    split
    · rename_i hab
      refine List.pairwise_cons.mpr ⟨?_, h⟩
      intro x hx
      rcases List.mem_cons.mp hx with rfl | h2
      · exact hab
      · exact htrans a b x hab (hb x h2)
    · rename_i hab
      have hba : le b a = true := htot a b (by simpa using hab)
      refine List.pairwise_cons.mpr ⟨?_, ih hbs⟩
      intro x hx
      have hm := (insSorted_perm le a bs).mem_iff.mp hx
      rcases List.mem_cons.mp hm with rfl | h2
      · exact hba
      · exact hb x h2

theorem insSort_pairwise (le : α → α → Bool)
    (htot : ∀ a b, le a b = false → le b a = true)
    (htrans : ∀ a b c, le a b = true → le b c = true → le a c = true)
    (l : List α) : (insSort le l).Pairwise (fun x y => le x y = true) := by
  induction l with
  | nil => simp [insSort]
  | cons a as ih => exact insSorted_pairwise le htot htrans a (insSort le as) ih

/-! ### The inclusion filter (`FileFilter`, src/codemap.py lines 87-96) -/

/-- `IGNORED_PATTERNS` from the source. -/
def IGNORED_PATTERNS : List String :=
  ["__pycache__", "node_modules", "dist", "build", "venv",
   ".git", ".svn", ".hg", ".idea", ".vscode",
   ".env", ".DS_Store", "Thumbs.db", ".bak", ".tmp",
   "desktop.ini", ".log", ".db", ".key", ".pyc",
   ".exe", ".dll", ".so", ".dylib"]

/-- `ALLOWED_EXTENSIONS` from the source. -/
def ALLOWED_EXTENSIONS : List String :=
  [".py", ".pyi", ".pyc", ".pyo", ".pyd", ".txt", ".md", ".rst",
   ".docx", ".pdf", ".odt", ".yaml", ".yml", ".toml",
   ".ini", ".cfg", ".sh", ".bash", ".zsh", ".csh", ".ksh",
   ".bat", ".cmd", ".ps1", ".vbs", ".js", ".ts", ".tsx",
   ".jsx", ".mjs", ".cjs", ".pl", ".php", ".tcl", ".lua",
   ".java", ".cpp", ".c", ".h", ".hpp", ".cs", ".go",
   ".rs", ".swift", ".vb", ".fs", ".sql", ".html",
   ".htm", ".css", ".scss", ".sass", ".less", ".xml"]

structure FileFilter where
  ignored_patterns : List String
  allowed_extensions : List String

/-- Characters of the path component after the last `/` (POSIX basename part,
as `posixpath.splitext` isolates it before looking for the extension dot). -/
def afterLastSep (cs : List Char) : List Char :=
  (cs.reverse.takeWhile (fun c => c ≠ '/')).reverse

/-- The `ext` component of `os.path.splitext(name)` (POSIX): the suffix from
the last dot of the basename, except that leading dots of the basename never
start an extension (`splitext(".cshrc") = (".cshrc", "")`). -/
def splitextExt (name : String) : String :=
  let base := afterLastSep name.data
  let stripped := base.dropWhile (fun c => c == '.')
  if stripped.contains '.' then
    ⟨'.' :: (stripped.reverse.takeWhile (fun c => c ≠ '.')).reverse⟩
  else ""

/-- `FileFilter.is_ignored` (src/codemap.py lines 92-96): ignored if any
ignored pattern occurs as a substring; otherwise ignored iff the allow-list is
non-empty, the extension is non-empty, and the lowered extension is not in the
allow-list. -/
def is_ignored (f : FileFilter) (name : String) : Bool :=
  if f.ignored_patterns.any (fun p => hasSub p.data name.data) then true
  else
    let ext := splitextExt name
    !f.allowed_extensions.isEmpty && !(ext == "") &&
      !(f.allowed_extensions.contains (pyLower ext))

-- sanity checks on the embedding of splitext / is_ignored
example : splitextExt "a.py" = ".py" := by decide
example : splitextExt ".cshrc" = "" := by decide
example : splitextExt "archive.tar.gz" = ".gz" := by decide
example : splitextExt "Makefile" = "" := by decide
example : is_ignored ⟨IGNORED_PATTERNS, ALLOWED_EXTENSIONS⟩ "a.py" = false := by decide
example : is_ignored ⟨IGNORED_PATTERNS, ALLOWED_EXTENSIONS⟩ "a.png" = true := by decide
example : is_ignored ⟨IGNORED_PATTERNS, ALLOWED_EXTENSIONS⟩ "node_modules" = true := by decide

/-- Claim C10: a name containing no ignored pattern and whose
`os.path.splitext` extension is empty is not ignored, even when the allow-list
of extensions is non-empty (the allow-list is bypassed for extensionless
names; only an ignored name-fragment can exclude them). -/
theorem claim_C10 (pats allowed : List String) (name : String)
    (hpat : ∀ p ∈ pats, hasSub p.data name.data = false)
    (hext : splitextExt name = "") :
    is_ignored ⟨pats, allowed⟩ name = false := by
  unfold is_ignored
  have hany : pats.any (fun p => hasSub p.data name.data) = false := by
    simp only [List.any_eq_false]
    exact fun p hp => by simp [hpat p hp]
  simp [hany, hext]

/-- Witness for C10: `"Makefile"` (extensionless, no ignored fragment) passes
the filter built from the source's actual constant lists. -/
theorem claim_C10_witness :
    is_ignored ⟨IGNORED_PATTERNS, ALLOWED_EXTENSIONS⟩ "Makefile" = false :=
  claim_C10 IGNORED_PATTERNS ALLOWED_EXTENSIONS "Makefile"
    (by decide) (by decide)

/-! ### The node graph (`TreeNode`, src/codemap.py lines 98-130)

A `TreeNode` carries `path`, `is_dir`, `expanded` (directories; `None` for
files, embedded as `false` since the code never reads it for files),
`original_name`, `display_name`, `render_name`, `anonymized`, `disabled`
(files; `None` for directories, embedded as `false` likewise), `token_count`
and `children`.  The `parent` back-pointer is not stored: operations that walk
it are embedded as updates along the node's position path. -/

structure NodeData where
  path : String
  isDir : Bool
  expanded : Bool
  originalName : String
  displayName : String
  renderName : String
  anonymized : Bool
  disabled : Bool
  tokenCount : Int
deriving DecidableEq, Repr

mutual
inductive PTree where
  | node : NodeData → PForest → PTree
deriving DecidableEq
inductive PForest where
  | nil : PForest
  | cons : PTree → PForest → PForest
deriving DecidableEq
end

instance : Inhabited NodeData :=
  ⟨{ path := "", isDir := false, expanded := false, originalName := "",
     displayName := "", renderName := "", anonymized := false,
     disabled := false, tokenCount := 0 }⟩

instance : Inhabited PTree := ⟨.node default .nil⟩

instance : Inhabited PForest := ⟨.nil⟩

def dataOf : PTree → NodeData
  | .node d _ => d

def childrenOf : PTree → PForest
  | .node _ cs => cs

def withData (d : NodeData) : PTree → PTree
  | .node _ cs => .node d cs

def toListF : PForest → List PTree
  | .nil => []
  | .cons c cs => c :: toListF cs

def ofListF : List PTree → PForest
  | [] => .nil
  | c :: cs => .cons c (ofListF cs)

def appendF : PForest → PTree → PForest
  | .nil, t => .cons t .nil
  | .cons c cs, t => .cons c (appendF cs t)

/-- Fetch the `i`-th child of a forest. -/
def getIdxF : PForest → Nat → Option PTree
  | .nil, _ => none
  | .cons c _, 0 => some c
  | .cons _ cs, n + 1 => getIdxF cs n

/-- Replace the `i`-th child of a forest by `f` of it (no-op out of range). -/
def modifyIdxF (cs : PForest) (i : Nat) (f : PTree → PTree) : PForest :=
  match cs, i with
  | .nil, _ => .nil
  | .cons c cs, 0 => .cons (f c) cs
  | .cons c cs, n + 1 => .cons c (modifyIdxF cs n f)

/-- Drop the `i`-th child of a forest (no-op out of range). -/
def removeIdxF : PForest → Nat → PForest
  | .nil, _ => .nil
  | .cons _ cs, 0 => cs
  | .cons c cs, n + 1 => .cons c (removeIdxF cs n)

/-- The node at position `p` (a list of child indices from the root). -/
def getAt : PTree → List Nat → Option PTree
  | t, [] => some t
  | .node _ cs, i :: p =>
    match getIdxF cs i with
    | some c => getAt c p
    | none => none

/-- Apply `f` to the subtree at position `p` (no-op on an invalid position). -/
def modifyAt : PTree → List Nat → (PTree → PTree) → PTree
  | t, [], f => f t
  | .node d cs, i :: p, f => .node d (modifyIdxF cs i (fun c => modifyAt c p f))

/-- `TreeNode.update_token_count(delta)` called on the node at `p`: adds
`delta` to that node's count and, following `parent` pointers, to every
ancestor up to the root (src/codemap.py lines 124-127). -/
def addUp : PTree → List Nat → Int → PTree
  | .node d cs, [], delta => .node {d with tokenCount := d.tokenCount + delta} cs
  | .node d cs, i :: p, delta =>
    .node {d with tokenCount := d.tokenCount + delta}
      (modifyIdxF cs i (fun c => addUp c p delta))

/-- `node.parent.update_token_count(delta)` for the node at `p`: adds `delta`
to every strict ancestor of `p` (and does nothing when `p` is the root). -/
def addUpParent : PTree → List Nat → Int → PTree
  | t, [], _ => t
  | .node d cs, [_], delta => .node {d with tokenCount := d.tokenCount + delta} cs
  | .node d cs, i :: p, delta =>
    .node {d with tokenCount := d.tokenCount + delta}
      (modifyIdxF cs i (fun c => addUpParent c p delta))

/-- `strike` (src/codemap.py lines 84-85). -/
def strike (s : String) : String := "̶" ++ s ++ "̶"

/-- `TreeNode.update_render_name` (src/codemap.py lines 129-130). -/
def update_render_name (d : NodeData) : NodeData :=
  { d with renderName :=
      if d.isDir then d.displayName
      else if d.disabled then strike d.displayName else d.displayName }

/-- Whether a child is counted by `calculate_token_count`:
`(child.is_dir and child.expanded) or (not child.is_dir and not child.disabled)`. -/
def countedChild (c : PTree) : Bool :=
  ((dataOf c).isDir && (dataOf c).expanded) ||
    (!(dataOf c).isDir && !(dataOf c).disabled)

mutual
/-- `TreeNode.calculate_token_count` (src/codemap.py lines 118-122): a file
returns `0 if disabled else token_count` without mutation; a directory sets
its own `token_count` to the sum over counted children of their recursively
recomputed counts (non-counted children are neither recomputed nor summed). -/
def calculate_token_count : PTree → PTree × Int
  | .node d cs =>
    if d.isDir then
      let r := calcForest cs
      (.node {d with tokenCount := r.2} r.1, r.2)
    else
      (.node d cs, if d.disabled then 0 else d.tokenCount)
def calcForest : PForest → PForest × Int
  | .nil => (.nil, 0)
  | .cons c cs =>
    let r := calcForest cs
    if countedChild c then
      let rc := calculate_token_count c
      (.cons rc.1 r.1, rc.2 + r.2)
    else
      (.cons c r.1, r.2)
end

/-- The comparison behind `TreeNode.sort_children`'s key
`(not x.is_dir, x.display_name.lower())` (src/codemap.py lines 115-116):
directories before files, then case-insensitively by display name. -/
def child_le (a b : PTree) : Bool :=
  if (dataOf a).isDir == (dataOf b).isDir then
    lexLE (pyLower (dataOf a).displayName).data (pyLower (dataOf b).displayName).data
  else (dataOf a).isDir

/-- `TreeNode.sort_children` (src/codemap.py lines 115-116). -/
def sort_children : PTree → PTree
  | .node d cs => .node d (ofListF (insSort child_le (toListF cs)))

/-- `toggle_node` (src/codemap.py lines 224-227). -/
def toggle_node (t : PTree) : PTree :=
  if (dataOf t).isDir then
    withData (update_render_name {dataOf t with expanded := !(dataOf t).expanded}) t
  else t

/-- `anonymize_toggle` (src/codemap.py lines 229-233); the random
`generate_anonymized_name()` result is the oracle argument `newName`. -/
def anonymize_toggle (newName : String) (t : PTree) : PTree :=
  if (dataOf t).isDir then
    let anon := !(dataOf t).anonymized
    withData (update_render_name
      { dataOf t with
        anonymized := anon,
        displayName := if anon then newName else (dataOf t).originalName }) t
  else t

mutual
/-- `set_subtree_expanded` (src/codemap.py lines 235-240): sets `expanded` of
the node and every directory descendant to the same boolean (recursion stops
at files). -/
def set_subtree_expanded (b : Bool) : PTree → PTree
  | .node d cs =>
    if d.isDir then
      .node (update_render_name {d with expanded := b}) (set_subtree_expandedF b cs)
    else .node d cs
def set_subtree_expandedF (b : Bool) : PForest → PForest
  | .nil => .nil
  | .cons c cs => .cons (set_subtree_expanded b c) (set_subtree_expandedF b cs)
end

/-- `toggle_subtree` (src/codemap.py lines 242-244). -/
def toggle_subtree (t : PTree) : PTree :=
  if (dataOf t).isDir then set_subtree_expanded (!(dataOf t).expanded) t else t

mutual
/-- `anonymize_subtree` (src/codemap.py lines 246-252): each directory in the
subtree inverts its *own* `anonymized` flag (not the clicked node's) and takes
a fresh pseudonym when turning anonymized.  `gen k` is the `k`-th random name
produced by `generate_anonymized_name`; the counter threads the call order. -/
def anonymize_subtree (gen : Nat → String) (k : Nat) : PTree → PTree × Nat
  | .node d cs =>
    if d.isDir then
      let anon := !d.anonymized
      let nm := if anon then gen k else d.originalName
      let k1 := if anon then k + 1 else k
      let d1 := update_render_name {d with anonymized := anon, displayName := nm}
      let r := anonymize_subtreeF gen k1 cs
      (.node d1 r.1, r.2)
    else (.node d cs, k)
def anonymize_subtreeF (gen : Nat → String) (k : Nat) : PForest → PForest × Nat
  | .nil => (.nil, k)
  | .cons c cs =>
    let rc := anonymize_subtree gen k c
    let r := anonymize_subtreeF gen rc.2 cs
    (.cons rc.1 r.1, r.2)
end

/-! ### Flattener and export collector (src/codemap.py lines 254-280) -/

mutual
/-- `flatten_tree` (src/codemap.py lines 254-262): pre-order `(node, depth,
show_tokens)` triples; `show_tokens` marks the first directory with a positive
count on a root-to-node chain; children are visited iff the node is a
directory and expanded. -/
def flatten_tree : PTree → Nat → Bool → List (NodeData × Nat × Bool)
  | .node d cs, depth, anc =>
    let showTok := !anc && decide (0 < d.tokenCount) && d.isDir
    let anc' := anc || showTok
    (d, depth, showTok) ::
      (if d.isDir && d.expanded then flattenForest cs (depth + 1) anc' else [])
def flattenForest : PForest → Nat → Bool → List (NodeData × Nat × Bool)
  | .nil, _, _ => []
  | .cons c cs, depth, anc => flatten_tree c depth anc ++ flattenForest cs depth anc
end

/-- `os.path.join(*parts)` on the separator-free display names the collector
joins (POSIX separator). -/
def joinPath (parts : List String) : String := String.intercalate "/" parts

/-- The file content read by the collector: the fresh read if it succeeds,
else the `"<Could not read file>"` sentinel. -/
def readOr (fs : String → Option String) (p : String) : String :=
  match fs p with
  | some c => c
  | none => "<Could not read file>"

mutual
/-- The inner `recurse` of `collect_visible_files` (src/codemap.py lines
266-278): descend into an expanded directory's children; emit a
`(display_path, content)` pair for a non-disabled file; emit nothing
otherwise.  `fs` is the state of the filesystem at collection time. -/
def collectRec (mode : String) (fs : String → Option String) :
    PTree → List String → List (String × String)
  | .node d cs, path =>
    let current := path ++ [d.displayName]
    if d.isDir && d.expanded then collectRecF mode fs cs current
    else if !d.isDir && !d.disabled then
      [(if mode == "relative" then joinPath current else d.displayName,
        readOr fs d.path)]
    else []
def collectRecF (mode : String) (fs : String → Option String) :
    PForest → List String → List (String × String)
  | .nil, _ => []
  | .cons c cs, path => collectRec mode fs c path ++ collectRecF mode fs cs path
end

/-- `collect_visible_files(node, path_mode)` (src/codemap.py lines 264-280). -/
def collect_visible_files (t : PTree) (mode : String)
    (fs : String → Option String) : List (String × String) :=
  collectRec mode fs t []

/-! ### Persisted state loader (`apply_state`, src/codemap.py lines 193-208) -/

/-- One record of the loaded state mapping; a `none` field stands for a key
absent from the JSON record (so `dict.get`'s default applies). -/
structure NodeState where
  expanded : Option Bool := none
  anonymized : Option Bool := none
  anonymizedName : Option String := none
  disabled : Option Bool := none

/-- The per-node field assignment of `apply_state` (src/codemap.py lines
194-204): the root is forced `expanded = True` (nothing else touched); a
non-root directory takes `expanded` (default `node.is_dir`, i.e. `true`),
`anonymized` (default `false`) and, when anonymized, the stored pseudonym
(default the original name); a non-root file takes `disabled` (default
`false`).  The render name is then refreshed. -/
def stateTransform (st : String → Option NodeState) (isRoot : Bool)
    (d : NodeData) : NodeData :=
  update_render_name
    (if isRoot then {d with expanded := true}
     else
       let ns := (st d.path).getD {}
       if d.isDir then
         let anon := ns.anonymized.getD false
         { d with
           expanded := ns.expanded.getD d.isDir,
           anonymized := anon,
           displayName :=
             if anon then ns.anonymizedName.getD d.originalName
             else d.originalName }
       else {d with disabled := ns.disabled.getD false})

mutual
/-- `apply_state` (src/codemap.py lines 193-208): assign each node's fields
per `stateTransform` (children are non-root), and recompute each directory's
token count bottom-up after its children are processed. -/
def apply_state (st : String → Option NodeState) (isRoot : Bool) : PTree → PTree
  | .node d cs =>
    let d2 := stateTransform st isRoot d
    let t' := PTree.node d2 (apply_stateF st cs)
    if d2.isDir then (calculate_token_count t').1 else t'
def apply_stateF (st : String → Option NodeState) : PForest → PForest
  | .nil => .nil
  | .cons c cs => .cons (apply_state st false c) (apply_stateF st cs)
end

/-! ### The foreground key handlers (src/codemap.py lines 442-490)

After a single-node or subtree mutation of the directory at position `p`, the
handler calls `node.calculate_token_count()` and then, if the node has a
parent, `node.parent.calculate_token_count()` — only the node and its direct
parent are recomputed. -/

/-- Recompute (`calculate_token_count`) the subtree at `p` in place. -/
def recomputeAt (t : PTree) (p : List Nat) : PTree :=
  modifyAt t p (fun sub => (calculate_token_count sub).1)

/-- The `KEY_ENTER` / `e` handler (src/codemap.py lines 442-450 / 470-475):
toggle the directory at `p`, recompute it, recompute its parent. -/
def expand_key (t : PTree) (p : List Nat) : PTree :=
  match getAt t p with
  | some sub =>
    if (dataOf sub).isDir then
      let t1 := modifyAt t p toggle_node
      let t2 := recomputeAt t1 p
      if p = [] then t2 else recomputeAt t2 p.dropLast
    else t
  | none => t

/-- The `E` handler (src/codemap.py lines 455-460): `toggle_subtree`, then the
same two recomputations. -/
def expand_subtree_key (t : PTree) (p : List Nat) : PTree :=
  match getAt t p with
  | some sub =>
    if (dataOf sub).isDir then
      let t1 := modifyAt t p toggle_subtree
      let t2 := recomputeAt t1 p
      if p = [] then t2 else recomputeAt t2 p.dropLast
    else t
  | none => t

/-- The `d` handler (src/codemap.py lines 482-490): flip the file's
`disabled`, refresh its render name, and propagate
`new_tokens - previous_tokens` to the ancestors via
`node.parent.update_token_count` (the file's own stored count is not
changed). -/
def disable_key (t : PTree) (p : List Nat) : PTree :=
  match getAt t p with
  | some sub =>
    let d := dataOf sub
    if d.isDir then t
    else
      let previous : Int := if d.disabled then 0 else d.tokenCount
      let d1 := update_render_name {d with disabled := !d.disabled}
      let newTok : Int := if d1.disabled then 0 else d1.tokenCount
      let t1 := modifyAt t p (withData d1)
      if p = [] then t1 else addUpParent t1 p (newTok - previous)
  | none => t

/-! ### Path helpers (`os.path.basename` / `os.path.dirname`, POSIX) -/

def pyBasename (p : String) : String := ⟨afterLastSep p.data⟩

def pyDirname (p : String) : String :=
  ⟨(p.data.reverse.dropWhile (fun c => c ≠ '/')).drop 1 |>.reverse⟩

/-! ### Initial tree build (`build_tree`, src/codemap.py lines 132-175)

The filesystem under the root is modelled as a forest of entries; a directory
whose listing raises `PermissionError` is `dirUnreadable`; a file's content is
`none` when unreadable.  `tok` is the `count_tokens` oracle. -/

mutual
inductive FSEntry where
  | file : String → Option String → FSEntry
  | dir : String → FSList → FSEntry
  | dirUnreadable : String → FSEntry
inductive FSList where
  | nil : FSList
  | cons : FSEntry → FSList → FSList
end

def fsName : FSEntry → String
  | .file n _ => n
  | .dir n _ => n
  | .dirUnreadable n => n

def fsNameLE (a b : FSEntry) : Bool := lexLE (fsName a).data (fsName b).data

def toListFS : FSList → List FSEntry
  | .nil => []
  | .cons e es => e :: toListFS es

def ofListFS : List FSEntry → FSList
  | [] => .nil
  | e :: es => .cons e (ofListFS es)

mutual
/-- `sorted(os.listdir(...))` is modelled by sorting every directory listing
of the filesystem model once, up front; `build_tree` then walks each listing
in this sorted order. -/
def fsSortAllE : FSEntry → FSEntry
  | .file n c => .file n c
  | .dirUnreadable n => .dirUnreadable n
  | .dir n es => .dir n (ofListFS (insSort fsNameLE (toListFS (fsSortAllF es))))
def fsSortAllF : FSList → FSList
  | .nil => .nil
  | .cons e es => .cons (fsSortAllE e) (fsSortAllF es)
end

/-- A fresh `TreeNode(path, is_dir)` (src/codemap.py lines 99-110):
`expanded`/`disabled` default `False` (the `None` of the other kind is also
embedded as `false`), all three names are the basename, nothing anonymized,
zero tokens. -/
def newTreeNode (pth : String) (isD : Bool) : NodeData :=
  { path := pth, isDir := isD, expanded := false,
    originalName := pyBasename pth, displayName := pyBasename pth,
    renderName := pyBasename pth, anonymized := false, disabled := false,
    tokenCount := 0 }

mutual
/-- One entry of `build_tree.recurse`'s loop (src/codemap.py lines 146-167),
for a pre-sorted listing: an ignored entry yields nothing; a file always
yields one node (unreadable content counts `0`, and the count is what every
ancestor received through `update_token_count`); a directory yields one node
only when its own recursion returned `True` (`depth` is the depth of the
directory being listed, so the child is visited at `depth + 1` and a too-deep
or unreadable or childless child yields nothing).  Result: the zero or one
built children, the subtree's file-token total, and the paths inserted into
`path_to_node` (descendants first, the entry itself last, as in the source). -/
def buildE (tok : String → Nat) (flt : FileFilter) (depth : Nat)
    (curPath : String) : FSEntry → List PTree × Int × List String
  | .file n content =>
    if is_ignored flt n then ([], 0, [])
    else
      let full := curPath ++ "/" ++ n
      let tc : Int := ((content.map tok).getD 0 : Nat)
      ([PTree.node {newTreeNode full false with tokenCount := tc} .nil],
       tc, [full])
  | .dirUnreadable n =>
    if is_ignored flt n then ([], 0, [])
    else ([], 0, [])
  | .dir n entries =>
    if is_ignored flt n then ([], 0, [])
    else
      let full := curPath ++ "/" ++ n
      if 10 < depth + 1 then ([], 0, [])
      else
        let r := buildF tok flt (depth + 1) full entries
        if r.1.isEmpty then ([], 0, [])
        else
          ([PTree.node {newTreeNode full true with tokenCount := r.2.1}
              (ofListF (insSort child_le r.1))],
           r.2.1, r.2.2 ++ [full])
def buildF (tok : String → Nat) (flt : FileFilter) (depth : Nat)
    (curPath : String) : FSList → List PTree × Int × List String
  | .nil => ([], 0, [])
  | .cons e es =>
    let r1 := buildE tok flt depth curPath e
    let r2 := buildF tok flt depth curPath es
    (r1.1 ++ r2.1, r1.2.1 + r2.2.1, r1.2.2 ++ r2.2.2)
end

/-- `build_tree` (src/codemap.py lines 132-175): build the root (expanded,
indexed first, children sorted by `sort_children`'s key when any survive),
recurse, and finish with a full `calculate_token_count` from the root.
Returns the tree and the `path_to_node` key list.  An unreadable root listing
behaves as an empty one (both yield a childless root). -/
def build_tree (tok : String → Nat) (flt : FileFilter) (rootPath : String)
    (entries : FSList) : PTree × List String :=
  let r := buildF tok flt 0 rootPath
    (ofListFS (insSort fsNameLE (toListFS (fsSortAllF entries))))
  let rootData := {newTreeNode rootPath true with expanded := true}
  if r.1.isEmpty then
    ((calculate_token_count (PTree.node rootData .nil)).1, [rootPath])
  else
    ((calculate_token_count
        (PTree.node {rootData with tokenCount := r.2.1}
          (ofListF (insSort child_le r.1)))).1,
     rootPath :: r.2.2)

/-! ### Background tokenizer (`calculate_token_counts`, src/codemap.py
lines 505-523)

One cycle sweeps every known node; for each non-disabled file whose count is
`0` it re-reads the content (unreadable reads count `0`), stores the new count
and adds it to every ancestor via `node.parent.update_token_count`.  The
traversal returns the subtree together with the total its ancestors receive. -/

mutual
def tokenizer_passT (tok : String → Nat) (fs : String → Option String) :
    PTree → PTree × Int
  | .node d cs =>
    let processed := !d.isDir && d.tokenCount == 0 && !d.disabled
    let tc : Int := if processed then (((fs d.path).map tok).getD 0 : Nat)
                    else d.tokenCount
    let r := tokenizer_passF tok fs cs
    (.node {d with tokenCount := tc + r.2} r.1,
     r.2 + (if processed then tc else 0))
def tokenizer_passF (tok : String → Nat) (fs : String → Option String) :
    PForest → PForest × Int
  | .nil => (.nil, 0)
  | .cons c cs =>
    let rc := tokenizer_passT tok fs c
    let r := tokenizer_passF tok fs cs
    (.cons rc.1 r.1, rc.2 + r.2)
end

/-- One cycle of `calculate_token_counts`: the sweep above, and then —
unconditionally, whether or not anything changed — `tree_changed_flag.set()`
(src/codemap.py line 522).  The boolean is the raised ChangeSignal. -/
def tokenizer_cycle (tok : String → Nat) (fs : String → Option String)
    (t : PTree) : PTree × Bool :=
  ((tokenizer_passT tok fs t).1, true)

/-! ### Background scanner deltas (`scan_filesystem`, src/codemap.py
lines 525-598)

The walk/mtime diff produces three path sets; the lock-held block applies
them.  The sets are taken here as arbitrary path lists (every cycle applies
some such lists); `isdir` and `fs` are the filesystem oracles at application
time.  `path_to_node` lookups become searches for the first node with the
given path (paths are unique keys in the store). -/

mutual
def findPosT (p : String) : PTree → Option (List Nat)
  | .node d cs => if d.path = p then some [] else findPosF p 0 cs
def findPosF (p : String) (i : Nat) : PForest → Option (List Nat)
  | .nil => none
  | .cons c cs =>
    match findPosT p c with
    | some q => some (i :: q)
    | none => findPosF p (i + 1) cs
end

def splitLast : List Nat → Option (List Nat × Nat)
  | [] => none
  | [i] => some ([], i)
  | i :: rest => (splitLast rest).map (fun q => (i :: q.1, q.2))

/-- An `added` path (src/codemap.py lines 558-574): if the parent path's node
exists, is a directory and is expanded, create a `TreeNode`, read and count a
file's content, propagate the new count from the parent upward
(`parent_node.update_token_count`), append the child and re-sort. -/
def scan_add (tok : String → Nat) (isdir : String → Bool)
    (fs : String → Option String) (t : PTree) (pth : String) : PTree :=
  let isD := isdir pth
  match findPosT (pyDirname pth) t with
  | some pp =>
    match getAt t pp with
    | some parent =>
      if (dataOf parent).isDir && (dataOf parent).expanded then
        let nd :=
          if isD then newTreeNode pth true
          else {newTreeNode pth false with
                  tokenCount := (((fs pth).map tok).getD 0 : Nat)}
        let t1 := if !isD && !nd.disabled then addUp t pp nd.tokenCount else t
        modifyAt t1 pp
          (fun s => sort_children (.node (dataOf s) (appendF (childrenOf s) (.node nd .nil))))
      else t
    | none => t
  | none => t

/-- A `removed` path (src/codemap.py lines 575-583): detach the node from its
parent's child list and, for a non-disabled file, subtract its count from the
ancestors; a node with no parent is only dropped from the index. -/
def scan_remove (t : PTree) (pth : String) : PTree :=
  match findPosT pth t with
  | some pos =>
    match getAt t pos, splitLast pos with
    | some sub, some qi =>
      let t1 := modifyAt t qi.1 (fun s => .node (dataOf s) (removeIdxF (childrenOf s) qi.2))
      if !(dataOf sub).isDir && !(dataOf sub).disabled then
        addUp t1 qi.1 (-(dataOf sub).tokenCount)
      else t1
    | _, _ => t
  | none => t

/-- A `modified` path (src/codemap.py lines 584-595): for a non-disabled file,
re-read and count, store the new count and propagate the delta to the
ancestors via `node.parent.update_token_count`. -/
def scan_modified (tok : String → Nat) (fs : String → Option String)
    (t : PTree) (pth : String) : PTree :=
  match findPosT pth t with
  | some pos =>
    match getAt t pos with
    | some sub =>
      let d := dataOf sub
      if !d.isDir && !d.disabled then
        let newCount : Int := (((fs pth).map tok).getD 0 : Nat)
        let t1 := modifyAt t pos (withData {d with tokenCount := newCount})
        if pos = [] then t1 else addUpParent t1 pos (newCount - d.tokenCount)
      else t
    | none => t
  | none => t

/-- One scan cycle's mutation block (src/codemap.py lines 556-596): apply all
added, then all removed, then all modified paths. -/
def scan_cycle (tok : String → Nat) (isdir : String → Bool)
    (fs : String → Option String) (t : PTree)
    (added removed modified : List String) : PTree :=
  ((added.foldl (scan_add tok isdir fs) t
    |> fun t1 => removed.foldl scan_remove t1)
    |> fun t2 => modified.foldl (scan_modified tok fs) t2)

/-! ### Position lemmas -/

/-- List-style induction on forests (the `induction` tactic does not apply
mutual recursors directly). -/
theorem forest_ind {motive : PForest → Prop} (hnil : motive .nil)
    (hcons : ∀ c cs, motive cs → motive (.cons c cs)) : ∀ cs, motive cs
  | .nil => hnil
  | .cons c cs => hcons c cs (forest_ind hnil hcons cs)

theorem getIdxF_modifyIdxF (cs : PForest) (i j : Nat) (f : PTree → PTree) :
    getIdxF (modifyIdxF cs i f) j =
      if i = j then (getIdxF cs i).map f else getIdxF cs j := by
  induction cs using forest_ind generalizing i j with
  | hnil => cases i <;> cases j <;> simp [modifyIdxF, getIdxF]
  | hcons c cs ih =>
    cases i with
    | zero => cases j <;> simp [modifyIdxF, getIdxF]
    | succ n =>
      cases j with
      | zero => simp [modifyIdxF, getIdxF]
      | succ m =>
        simp only [modifyIdxF, getIdxF, ih n m]
        by_cases h : n = m <;> simp [h]

theorem modifyIdxF_comp (cs : PForest) (i : Nat) (f g : PTree → PTree) :
    modifyIdxF (modifyIdxF cs i f) i g = modifyIdxF cs i (fun c => g (f c)) := by
  induction cs using forest_ind generalizing i with
  | hnil => cases i <;> simp [modifyIdxF]
  | hcons c cs ih => cases i <;> simp [modifyIdxF, ih]

theorem getAt_modifyAt (t : PTree) (p : List Nat) (f : PTree → PTree) :
    getAt (modifyAt t p f) p = (getAt t p).map f := by
  induction p generalizing t with
  | nil => simp [modifyAt, getAt]
  | cons i p ih =>
    cases t with
    | node d cs =>
      simp only [modifyAt, getAt, getIdxF_modifyIdxF, if_pos rfl]
      cases h : getIdxF cs i with
      | none => simp
      | some c => simp [ih]

theorem getAt_addUpParent (t : PTree) (p : List Nat) (delta : Int) :
    getAt (addUpParent t p delta) p = getAt t p := by
  induction p generalizing t with
  | nil => simp [addUpParent]
  | cons i p ih =>
    cases t with
    | node d cs =>
      cases p with
      | nil => simp [addUpParent, getAt]
      | cons j q =>
        simp only [addUpParent, getAt, getIdxF_modifyIdxF, if_pos rfl]
        cases h : getIdxF cs i with
        | none => simp
        | some c => simp [ih]

theorem addUpParent_comp (t : PTree) (p : List Nat) (d1 d2 : Int) :
    addUpParent (addUpParent t p d1) p d2 = addUpParent t p (d1 + d2) := by
  induction p generalizing t with
  | nil => simp [addUpParent]
  | cons i p ih =>
    cases t with
    | node d cs =>
      cases p with
      | nil => simp [addUpParent, Int.add_assoc]
      | cons j q =>
        simp only [addUpParent, modifyIdxF_comp, Int.add_assoc]
        congr 1
        apply congrArg
        funext c
        exact ih c

theorem addUpParent_zero (t : PTree) (p : List Nat) : addUpParent t p 0 = t := by
  induction p generalizing t with
  | nil => simp [addUpParent]
  | cons i p ih =>
    cases t with
    | node d cs =>
      cases p with
      | nil => simp [addUpParent]
      | cons j q =>
        simp only [addUpParent, Int.add_zero]
        congr 1
        have : (fun c => addUpParent c (j :: q) 0) = id := funext fun c => ih c
        rw [this]
        induction cs using forest_ind generalizing i with
        | hnil => cases i <;> simp [modifyIdxF]
        | hcons c cs ihcs => cases i <;> simp_all [modifyIdxF]

theorem modifyAt_addUpParent_comm (t : PTree) (p : List Nat) (f : PTree → PTree)
    (delta : Int) :
    modifyAt (addUpParent t p delta) p f = addUpParent (modifyAt t p f) p delta := by
  induction p generalizing t with
  | nil => simp [addUpParent]
  | cons i p ih =>
    cases t with
    | node d cs =>
      cases p with
      | nil => simp [addUpParent, modifyAt]
      | cons j q =>
        simp only [addUpParent, modifyAt, modifyIdxF_comp]
        congr 1
        apply congrArg
        funext c
        exact ih c

theorem modifyAt_comp (t : PTree) (p : List Nat) (f g : PTree → PTree) :
    modifyAt (modifyAt t p f) p g = modifyAt t p (fun s => g (f s)) := by
  induction p generalizing t with
  | nil => simp [modifyAt]
  | cons i p ih =>
    cases t with
    | node d cs =>
      simp only [modifyAt, modifyIdxF_comp]
      congr 1
      apply congrArg
      funext c
      exact ih c

/-- The token count stored at position `q` (a directory's incrementally
maintained aggregate, or a file's own count). -/
def tokenAt (t : PTree) (q : List Nat) : Option Int :=
  (getAt t q).map (fun s => (dataOf s).tokenCount)

theorem tokenAt_modifyAt_data (t : PTree) (p q : List Nat) (d' : NodeData)
    (hkeep : ∀ sub, getAt t p = some sub → d'.tokenCount = (dataOf sub).tokenCount) :
    tokenAt (modifyAt t p (withData d')) q = tokenAt t q := by
  induction p generalizing t q with
  | nil =>
    cases q with
    | nil =>
      cases t with
      | node d cs => simp [tokenAt, modifyAt, getAt, withData, dataOf, hkeep _ rfl]
    | cons j q =>
      cases t with
      | node d cs => simp [tokenAt, modifyAt, getAt, withData]
  | cons i p ih =>
    cases t with
    | node d cs =>
      cases q with
      | nil => simp [tokenAt, modifyAt, getAt, dataOf]
      | cons j q =>
        simp only [tokenAt, modifyAt, getAt, getIdxF_modifyIdxF]
        by_cases hij : i = j
        · subst hij
          simp only [if_pos rfl]
          cases h : getIdxF cs i with
          | none => simp
          | some c =>
            simp only [Option.map_some']
            have := ih c q (by intro sub hs; exact hkeep sub (by simp [getAt, h, hs]))
            simpa [tokenAt] using this
        · simp [hij]

theorem tokenAt_addUpParent_cancel (t : PTree) (p : List Nat) (delta : Int)
    (q : List Nat) :
    tokenAt (addUpParent (addUpParent t p delta) p (-delta)) q = tokenAt t q := by
  rw [addUpParent_comp]
  simp [addUpParent_zero]

theorem dataOf_withData (d : NodeData) (s : PTree) : dataOf (withData d s) = d := by
  cases s <;> rfl

theorem withData_withData (a b : NodeData) (s : PTree) :
    withData a (withData b s) = withData a s := by
  cases s <;> rfl

theorem update_render_name_isDir (d : NodeData) :
    (update_render_name d).isDir = d.isDir := rfl

theorem update_render_name_disabled (d : NodeData) :
    (update_render_name d).disabled = d.disabled := rfl

theorem update_render_name_tokenCount (d : NodeData) :
    (update_render_name d).tokenCount = d.tokenCount := rfl

/-- Claim C8: disabling a non-disabled file (the `d` handler) leaves the
file's own stored `token_count` unchanged (only the ancestor sums move), and
re-enabling it restores the stored `token_count` of every node — each
ancestor aggregate got `-N` then `+N`. -/
theorem claim_C8 (t : PTree) (p : List Nat) (sub : PTree)
    (h1 : getAt t p = some sub) (h2 : (dataOf sub).isDir = false)
    (h3 : (dataOf sub).disabled = false) :
    tokenAt (disable_key t p) p = tokenAt t p ∧
      ∀ q, tokenAt (disable_key (disable_key t p) p) q = tokenAt t q := by
  have step1 : disable_key t p =
      if p = [] then
        modifyAt t p
          (withData (update_render_name {dataOf sub with disabled := true}))
      else
        addUpParent
          (modifyAt t p
            (withData (update_render_name {dataOf sub with disabled := true})))
          p (0 - (dataOf sub).tokenCount) := by
    simp only [disable_key, h1, h2, h3, Bool.false_eq_true, if_false,
      Bool.not_false, update_render_name_disabled, if_true]
  have hget2 : getAt (disable_key t p) p =
      some (withData (update_render_name {dataOf sub with disabled := true}) sub) := by
    rw [step1]
    by_cases hp : p = []
    · subst hp
      have ht : t = sub := by simpa [getAt] using h1
      subst ht
      simp [getAt, modifyAt]
    · rw [if_neg hp, getAt_addUpParent, getAt_modifyAt, h1, Option.map_some']
  have step2 : disable_key (disable_key t p) p =
      if p = [] then
        modifyAt (disable_key t p) p
          (withData (update_render_name
            {update_render_name {dataOf sub with disabled := true} with
              disabled := false}))
      else
        addUpParent
          (modifyAt (disable_key t p) p
            (withData (update_render_name
              {update_render_name {dataOf sub with disabled := true} with
                disabled := false})))
          p ((dataOf sub).tokenCount - 0) := by
    generalize disable_key t p = X at hget2 ⊢
    simp only [disable_key, hget2, dataOf_withData, update_render_name_isDir,
      h2, Bool.false_eq_true, if_false, update_render_name_disabled,
      Bool.not_true, if_true, update_render_name_tokenCount]
  have hkeep : ∀ s, getAt t p = some s →
      (update_render_name
        {update_render_name {dataOf sub with disabled := true} with
          disabled := false}).tokenCount = (dataOf s).tokenCount := by
    intro s hs
    rw [h1] at hs
    cases hs
    rfl
  have hcomp : (fun s => withData (update_render_name
      {update_render_name {dataOf sub with disabled := true} with
        disabled := false})
      (withData (update_render_name {dataOf sub with disabled := true}) s)) =
      withData (update_render_name
        {update_render_name {dataOf sub with disabled := true} with
          disabled := false}) := by
    funext s; exact withData_withData _ _ s
  constructor
  · unfold tokenAt
    rw [hget2, h1, Option.map_some', Option.map_some', dataOf_withData]
    rfl
  · intro q
    by_cases hp : p = []
    · subst hp
      rw [step2, if_pos rfl, step1, if_pos rfl, modifyAt_comp, hcomp]
      exact tokenAt_modifyAt_data t [] q _ hkeep
    · rw [step2, if_neg hp, step1, if_neg hp, modifyAt_addUpParent_comm,
        addUpParent_comp, modifyAt_comp, hcomp]
      have hzero : 0 - (dataOf sub).tokenCount +
          ((dataOf sub).tokenCount - 0) = 0 := by
        ring
      rw [hzero, addUpParent_zero]
      exact tokenAt_modifyAt_data t p q _ hkeep

/-- The file child of the C8 witness tree. -/
def c8file : PTree :=
  .node { path := "/r/a.txt", isDir := false, expanded := false,
          originalName := "a.txt", displayName := "a.txt",
          renderName := "a.txt", anonymized := false,
          disabled := false, tokenCount := 5 } .nil

/-- Concrete tree for the C8 witness: an expanded root with one enabled
5-token file. -/
def c8tree : PTree :=
  .node { path := "/r", isDir := true, expanded := true, originalName := "r",
          displayName := "r", renderName := "r", anonymized := false,
          disabled := false, tokenCount := 5 }
    (.cons c8file .nil)

/-- Witness for C8 at the concrete tree: the root aggregate after
disable + re-enable of the file equals the original. -/
theorem claim_C8_witness :
    tokenAt (disable_key c8tree [0]) [0] = tokenAt c8tree [0] ∧
      tokenAt (disable_key (disable_key c8tree [0]) [0]) [] = tokenAt c8tree [] :=
  ⟨(claim_C8 c8tree [0] c8file rfl rfl rfl).1,
   (claim_C8 c8tree [0] c8file rfl rfl rfl).2 []⟩

/-! ### Concrete-input helpers -/

/-- A file node as `build_tree` would create it, with a given count and
disabled flag. -/
def mkFileNode (pth : String) (tc : Int) (dis : Bool) : NodeData :=
  { path := pth, isDir := false, expanded := false,
    originalName := pyBasename pth, displayName := pyBasename pth,
    renderName := pyBasename pth, anonymized := false, disabled := dis,
    tokenCount := tc }

/-- A directory node with a given count and expansion flag. -/
def mkDirNode (pth : String) (tc : Int) (e : Bool) : NodeData :=
  { path := pth, isDir := true, expanded := e,
    originalName := pyBasename pth, displayName := pyBasename pth,
    renderName := pyBasename pth, anonymized := false, disabled := false,
    tokenCount := tc }

/-! ### Claim C1 -/

/-- The C1 failing input: root `/r` (expanded) → directory `A` (collapsed) →
directory `B` (collapsed) → file `f.txt` of 5 tokens.  The counts are exactly
what startup leaves (`apply_state` recomputed bottom-up: `B = 5` but `A` and
the root hold `0` because their counted-children sums skip collapsed
directories). -/
def c1tree : PTree :=
  .node (mkDirNode "/r" 0 true)
    (.cons (.node (mkDirNode "/r/A" 0 false)
      (.cons (.node (mkDirNode "/r/A/B" 5 false)
        (.cons (.node (mkFileNode "/r/A/B/f.txt" 5 false) .nil) .nil)) .nil)) .nil)

/-- The tree after the mutation sequence: expand `A` (position `[0]`), then
expand `B` (position `[0, 0]`), each through the `e`/Enter handler. -/
def c1after : PTree := expand_key (expand_key c1tree [0]) [0, 0]

/-- Claim C1 (code bug evidence): the initial tree is consistent (a full
recomputation from the root is a no-op on the root aggregate), `B` is visible
when toggled (`A` and the root are expanded at that point), yet after the
two expand toggles the root's stored aggregate is `0` while a full bottom-up
recomputation from the root yields `5` — the handler recomputed only the
toggled node and its direct parent, so the root kept a stale aggregate and
full recomputation is *not* a no-op, contradicting the claimed contract. -/
theorem claim_C1 :
    (dataOf (calculate_token_count c1tree).1).tokenCount =
        (dataOf c1tree).tokenCount ∧
    (getAt (expand_key c1tree [0]) [0]).map (fun s => (dataOf s).expanded) =
        some true ∧
    (dataOf c1after).tokenCount = 0 ∧
    (dataOf (calculate_token_count c1after).1).tokenCount = 5 := by
  refine ⟨?_, ?_, ?_, ?_⟩ <;> decide

/-! ### Claim C7 -/

/-- A tokenizer-cycle input on which no token count can change: the only file
already has a non-zero count, and reads fail anyway. -/
def c7tree : PTree :=
  .node (mkDirNode "/r" 3 true)
    (.cons (.node (mkFileNode "/r/a.txt" 3 false) .nil) .nil)

/-- Counterexample to C7 as stated: a background-tokenizer cycle that changes
no file's token count (the tree is returned unchanged) still raises the
ChangeSignal, because `calculate_token_counts` calls
`tree_changed_flag.set()` unconditionally at the end of every cycle. -/
theorem claim_C7_counterexample :
    (tokenizer_cycle String.length (fun _ => none) c7tree).1 = c7tree ∧
    (tokenizer_cycle String.length (fun _ => none) c7tree).2 = true := by
  exact ⟨by decide, rfl⟩

/-- Claim C7 as amended: the background tokenizer raises the ChangeSignal on
every cycle, unconditionally — whether or not any file's token count
changed. -/
theorem claim_C7_amended (tok : String → Nat) (fs : String → Option String)
    (t : PTree) : (tokenizer_cycle tok fs t).2 = true := rfl

/-! ### Claim C3 -/

theorem child_le_total : ∀ a b, child_le a b = false → child_le b a = true := by
  intro a b h
  unfold child_le at h ⊢
  cases hA : (dataOf a).isDir <;> cases hB : (dataOf b).isDir <;>
    simp [hA, hB] at h ⊢
  · exact lexLE_total _ _ h
  · exact lexLE_total _ _ h

theorem child_le_trans :
    ∀ a b c, child_le a b = true → child_le b c = true → child_le a c = true := by
  intro a b c hab hbc
  unfold child_le at hab hbc ⊢
  cases hA : (dataOf a).isDir <;> cases hB : (dataOf b).isDir <;>
    cases hC : (dataOf c).isDir <;> simp_all
  · exact lexLE_trans _ _ _ hab hbc
  · exact lexLE_trans _ _ _ hab hbc

theorem toListF_ofListF (l : List PTree) : toListF (ofListF l) = l := by
  induction l with
  | nil => rfl
  | cons c cs ih => simp [ofListF, toListF, ih]

/-- The C3 example tree, assembled the way the code does: children are
appended and then `sort_children` establishes the order (note the deliberately
unsorted insertion order `c.txt, A` and `b.txt, a.txt`). -/
def c3tree : PTree :=
  sort_children (.node (mkDirNode "/R" 0 true)
    (.cons (.node (mkFileNode "/R/c.txt" 0 false) .nil)
      (.cons (sort_children (.node (mkDirNode "/R/A" 0 true)
        (.cons (.node (mkFileNode "/R/A/b.txt" 0 false) .nil)
          (.cons (.node (mkFileNode "/R/A/a.txt" 0 false) .nil) .nil)))) .nil)))

/-- Claim C3: flattening the example tree yields `[R, A, a.txt, b.txt,
c.txt]`; in general `sort_children` orders siblings directories-first and
case-insensitively alphabetically within each group (a permutation of the
same children), and `flatten_tree` emits a node and then its children's
flattening iff the node is an expanded directory. -/
theorem claim_C3 :
    ((flatten_tree c3tree 0 false).map (fun e => e.1.displayName) =
        ["R", "A", "a.txt", "b.txt", "c.txt"]) ∧
    (∀ t : PTree,
      (toListF (childrenOf (sort_children t))).Pairwise
          (fun a b => child_le a b = true) ∧
        (toListF (childrenOf (sort_children t))).Perm
          (toListF (childrenOf t))) ∧
    (∀ (d : NodeData) (cs : PForest) (k : Nat) (anc : Bool),
      flatten_tree (.node d cs) k anc =
        (d, k, !anc && decide (0 < d.tokenCount) && d.isDir) ::
          (if d.isDir && d.expanded then
            flattenForest cs (k + 1)
              (anc || (!anc && decide (0 < d.tokenCount) && d.isDir))
          else [])) := by
  refine ⟨by decide, ?_, fun d cs k anc => rfl⟩
  intro t
  cases t with
  | node d cs =>
    simp only [sort_children, childrenOf, toListF_ofListF]
    exact ⟨insSort_pairwise child_le child_le_total child_le_trans _,
      insSort_perm child_le _⟩

/-! ### Claim C2 -/

mutual
/-- Spec-side enumeration for the export collector: every node of the tree
with its display-name path and a visibility flag that is true iff every
ancestor on the way down (the subtree root included) was an expanded
directory — "reachable only through expanded directories". -/
def specNodes (pre : List String) (vis : Bool) : PTree → List (List String × Bool × NodeData)
  | .node d cs =>
    (pre ++ [d.displayName], vis, d) ::
      specNodesF (pre ++ [d.displayName]) (vis && d.isDir && d.expanded) cs
def specNodesF (pre : List String) (vis : Bool) : PForest → List (List String × Bool × NodeData)
  | .nil => []
  | .cons c cs => specNodes pre vis c ++ specNodesF pre vis cs
end

/-- The export collector as the spec words it: one `(exportPath, content)`
pair per visible (reachable only through expanded directories), non-disabled
file and for no other node, keyed by the path mode, with the fresh read
falling back to the `"<Could not read file>"` sentinel. -/
def export_spec (t : PTree) (mode : String) (fs : String → Option String) :
    List (String × String) :=
  (specNodes [] true t).filterMap fun e =>
    if e.2.1 && !e.2.2.isDir && !e.2.2.disabled then
      some (if mode == "relative" then joinPath e.1 else e.2.2.displayName,
        readOr fs e.2.2.path)
    else none

set_option maxHeartbeats 1000000 in
mutual
theorem collect_specT (mode : String) (fs : String → Option String) :
    ∀ (t : PTree) (pre : List String) (vis : Bool),
      ((specNodes pre vis t).filterMap fun e =>
        if e.2.1 && !e.2.2.isDir && !e.2.2.disabled then
          some (if mode == "relative" then joinPath e.1 else e.2.2.displayName,
            readOr fs e.2.2.path)
        else none) = if vis then collectRec mode fs t pre else []
  | .node d cs, pre, vis => by
    have ihF := collect_specF mode fs cs (pre ++ [d.displayName])
      (vis && d.isDir && d.expanded)
    cases hD : d.isDir <;> cases hE : d.expanded <;> cases hX : d.disabled <;>
      cases vis <;>
      simp_all [specNodes, collectRec, List.filterMap_cons] <;>
      exact ihF
theorem collect_specF (mode : String) (fs : String → Option String) :
    ∀ (cs : PForest) (pre : List String) (vis : Bool),
      ((specNodesF pre vis cs).filterMap fun e =>
        if e.2.1 && !e.2.2.isDir && !e.2.2.disabled then
          some (if mode == "relative" then joinPath e.1 else e.2.2.displayName,
            readOr fs e.2.2.path)
        else none) = if vis then collectRecF mode fs cs pre else []
  | .nil, pre, vis => by cases vis <;> simp [specNodesF, collectRecF]
  | .cons c cs, pre, vis => by
    have ihT := collect_specT mode fs c pre vis
    have ihF := collect_specF mode fs cs pre vis
    cases vis <;> simp_all [specNodesF, collectRecF, List.filterMap_append]
    exact ⟨ihT, ihF⟩
end

/-- The C2 concrete tree: an expanded root with exactly two file children,
`keep.txt` enabled (5 tokens) and `off.txt` disabled. -/
def c2tree : PTree :=
  .node (mkDirNode "/r" 5 true)
    (.cons (.node (mkFileNode "/r/keep.txt" 5 false) .nil)
      (.cons (.node (mkFileNode "/r/off.txt" 7 true) .nil) .nil))

/-- The collection-time filesystem for C2: only `keep.txt` is readable. -/
def c2fs : String → Option String :=
  fun p => if p = "/r/keep.txt" then some "hello" else none

/-- A root with a single enabled but unreadable file, for the sentinel. -/
def c2utree : PTree :=
  .node (mkDirNode "/r" 0 true)
    (.cons (.node (mkFileNode "/r/u.txt" 0 false) .nil) .nil)

/-- Claim C2: the export collector equals its specification (a pair for every
non-disabled file reachable only through expanded directories, and for no
other node, freshly read, keyed by path mode, with the unreadable-content
sentinel); on the root-with-two-files instance it returns exactly the one
enabled file's fresh content keyed by the chosen path mode, and an unreadable
enabled file yields the sentinel. -/
theorem claim_C2 :
    (∀ (t : PTree) (mode : String) (fs : String → Option String),
      collect_visible_files t mode fs = export_spec t mode fs) ∧
    collect_visible_files c2tree "relative" c2fs = [("r/keep.txt", "hello")] ∧
    collect_visible_files c2tree "basename" c2fs = [("keep.txt", "hello")] ∧
    collect_visible_files c2utree "relative" c2fs =
      [("r/u.txt", "<Could not read file>")] := by
  refine ⟨?_, by decide, by decide, by decide⟩
  intro t mode fs
  have h := collect_specT mode fs t [] true
  simp only [if_pos rfl] at h
  rw [collect_visible_files, export_spec, h]
  simp

/-! ### Claim C4 -/

/-- The user-visible state of a node: everything except the token count —
what the scanner must never touch and what `apply_state` assigns. -/
structure UserView where
  path : String
  isDir : Bool
  expanded : Bool
  anonymized : Bool
  disabled : Bool
  originalName : String
  displayName : String
  renderName : String
deriving DecidableEq, Repr

def userOf (d : NodeData) : UserView :=
  { path := d.path, isDir := d.isDir, expanded := d.expanded,
    anonymized := d.anonymized, disabled := d.disabled,
    originalName := d.originalName, displayName := d.displayName,
    renderName := d.renderName }

theorem getIdxF_calcForest : ∀ (cs : PForest) (i : Nat),
    getIdxF (calcForest cs).1 i = (getIdxF cs i).map
      (fun c => if countedChild c then (calculate_token_count c).1 else c) := by
  intro cs
  induction cs using forest_ind with
  | hnil => intro i; cases i <;> simp [calcForest, getIdxF]
  | hcons c cs ih =>
    intro i
    cases i with
    | zero =>
      by_cases hc : countedChild c <;> simp [calcForest, getIdxF, hc]
    | succ n =>
      by_cases hc : countedChild c <;> simp [calcForest, getIdxF, hc, ih n]

/-- `calculate_token_count` rewrites only token counts: the user view of the
node at any position is unchanged. -/
theorem calc_userView : ∀ (q : List Nat) (t : PTree),
    (getAt (calculate_token_count t).1 q).map (fun s => userOf (dataOf s)) =
      (getAt t q).map (fun s => userOf (dataOf s)) := by
  intro q
  induction q with
  | nil =>
    intro t
    cases t with
    | node d cs =>
      by_cases hD : d.isDir <;>
        simp [calculate_token_count, hD, getAt, dataOf, userOf]
  | cons i q ih =>
    intro t
    cases t with
    | node d cs =>
      by_cases hD : d.isDir
      · simp only [calculate_token_count, hD, if_pos, if_true, getAt,
          getIdxF_calcForest]
        cases h : getIdxF cs i with
        | none => simp
        | some c =>
          simp only [Option.map_some']
          by_cases hc : countedChild c <;> simp [hc, ih]
      · simp [calculate_token_count, hD]

theorem getIdxF_apply_stateF (st : String → Option NodeState) :
    ∀ (cs : PForest) (i : Nat),
      getIdxF (apply_stateF st cs) i = (getIdxF cs i).map (apply_state st false) := by
  intro cs
  induction cs using forest_ind with
  | hnil => intro i; cases i <;> simp [apply_stateF, getIdxF]
  | hcons c cs ih => intro i; cases i <;> simp [apply_stateF, getIdxF, ih]

/-- What the persisted-state loader leaves at each position: the node's user
view is exactly `stateTransform` of its old data (the root flag applying only
at the loader's entry position). -/
theorem apply_state_userView (st : String → Option NodeState) :
    ∀ (q : List Nat) (ir : Bool) (t : PTree),
      (getAt (apply_state st ir t) q).map (fun s => userOf (dataOf s)) =
        (getAt t q).map
          (fun s => userOf (stateTransform st (ir && decide (q = [])) (dataOf s))) := by
  intro q
  induction q with
  | nil =>
    intro ir t
    cases t with
    | node d cs =>
      by_cases hD : (stateTransform st ir d).isDir <;>
        simp [apply_state, hD, getAt, dataOf, calculate_token_count, userOf,
          calcForest]
  | cons i q ih =>
    intro ir t
    cases t with
    | node d cs =>
      by_cases hD : (stateTransform st ir d).isDir
      · simp only [apply_state, hD, if_true]
        rw [show (decide (i :: q = []) = false) from rfl, Bool.and_false]
        have hcv := calc_userView (i :: q)
          (PTree.node (stateTransform st ir d) (apply_stateF st cs))
        rw [hcv]
        simp only [getAt, getIdxF_apply_stateF]
        cases h : getIdxF cs i with
        | none => simp
        | some c => simpa using ih false c
      · simp only [apply_state, hD, if_false, Bool.false_eq_true]
        rw [show (decide (i :: q = []) = false) from rfl, Bool.and_false]
        simp only [getAt, getIdxF_apply_stateF]
        cases h : getIdxF cs i with
        | none => simp
        | some c => simpa using ih false c

theorem stateTransform_root (st : String → Option NodeState) (d : NodeData) :
    (stateTransform st true d).expanded = true := by
  simp [stateTransform, update_render_name]

theorem stateTransform_none_dir (st : String → Option NodeState) (d : NodeData)
    (hst : st d.path = none) (hD : d.isDir = true) :
    (stateTransform st false d).expanded = true ∧
      (stateTransform st false d).anonymized = false ∧
      (stateTransform st false d).displayName = d.originalName := by
  simp [stateTransform, hst, hD, update_render_name]

theorem stateTransform_none_file (st : String → Option NodeState) (d : NodeData)
    (hst : st d.path = none) (hD : d.isDir = false) :
    (stateTransform st false d).disabled = false := by
  simp [stateTransform, hst, hD, update_render_name]

/-- The C4 concrete tree: expanded root `/r` with a collapsed directory `D`
and an enabled file `f.txt`. -/
def c4tree : PTree :=
  .node (mkDirNode "/r" 0 true)
    (.cons (.node (mkDirNode "/r/D" 0 false) .nil)
      (.cons (.node (mkFileNode "/r/f.txt" 0 false) .nil) .nil))

/-- Counterexample to C4 as stated: applying an empty persisted state to the
concrete tree leaves the non-root directory `D` (absent from the state) with
`expanded = true`, not the claimed `false` — `apply_state`'s default for a
missing `"expanded"` key is `node.is_dir`. -/
theorem claim_C4_counterexample :
    (getAt (apply_state (fun _ => none) true c4tree) [0]).map
        (fun s => (dataOf s).expanded) = some true ∧
      ¬((getAt (apply_state (fun _ => none) true c4tree) [0]).map
        (fun s => (dataOf s).expanded) = some false) := by
  refine ⟨by decide, by decide⟩

/-- Claim C4 as amended: a node whose path is absent from the loaded state
gets the loader's defaults — a non-root directory gets `expanded = true` (the
default for a missing `expanded` key is `node.is_dir`) and
`anonymized = false` with display name the real base name, a file gets
`disabled = false`, and the root is always set `expanded = true`. -/
theorem claim_C4_amended (st : String → Option NodeState) (t : PTree)
    (q : List Nat) (sub : PTree) (h : getAt t q = some sub)
    (hst : st (dataOf sub).path = none) :
    ∃ sub', getAt (apply_state st true t) q = some sub' ∧
      (q = [] → (dataOf sub').expanded = true) ∧
      (q ≠ [] → (dataOf sub).isDir = true →
        (dataOf sub').expanded = true ∧ (dataOf sub').anonymized = false ∧
          (dataOf sub').displayName = (dataOf sub).originalName) ∧
      (q ≠ [] → (dataOf sub).isDir = false →
        (dataOf sub').disabled = false) := by
  have huv := apply_state_userView st q true t
  rw [h, Option.map_some'] at huv
  rcases Option.map_eq_some'.mp huv with ⟨sub', hg, hq⟩
  refine ⟨sub', hg, ?_, ?_, ?_⟩
  · intro hqe
    subst hqe
    have he := congrArg UserView.expanded hq
    simp only [userOf] at he
    rw [he]
    simpa using stateTransform_root st (dataOf sub)
  · intro hqne hD
    have hdec : decide (q = []) = false := by simp [hqne]
    rw [hdec, Bool.and_false] at hq
    have h1 := congrArg UserView.expanded hq
    have h2 := congrArg UserView.anonymized hq
    have h3 := congrArg UserView.displayName hq
    simp only [userOf] at h1 h2 h3
    rcases stateTransform_none_dir st (dataOf sub) hst hD with ⟨e1, e2, e3⟩
    exact ⟨h1.trans e1, h2.trans e2, h3.trans e3⟩
  · intro hqne hD
    have hdec : decide (q = []) = false := by simp [hqne]
    rw [hdec, Bool.and_false] at hq
    have h1 := congrArg UserView.disabled hq
    simp only [userOf] at h1
    exact h1.trans (stateTransform_none_file st (dataOf sub) hst hD)

/-- Witness for the amended C4 at the concrete tree and the empty state. -/
theorem claim_C4_amended_witness :
    ∃ sub', getAt (apply_state (fun _ => none) true c4tree) [0] = some sub' ∧
      (([0] : List Nat) = [] → (dataOf sub').expanded = true) ∧
      (([0] : List Nat) ≠ [] →
        (dataOf (PTree.node (mkDirNode "/r/D" 0 false) .nil)).isDir = true →
        (dataOf sub').expanded = true ∧ (dataOf sub').anonymized = false ∧
          (dataOf sub').displayName =
            (dataOf (PTree.node (mkDirNode "/r/D" 0 false) .nil)).originalName) ∧
      (([0] : List Nat) ≠ [] →
        (dataOf (PTree.node (mkDirNode "/r/D" 0 false) .nil)).isDir = false →
        (dataOf sub').disabled = false) :=
  claim_C4_amended (fun _ => none) c4tree [0]
    (PTree.node (mkDirNode "/r/D" 0 false) .nil) rfl rfl

/-! ### Claim C6 -/

def isNilF : PForest → Bool
  | .nil => true
  | .cons _ _ => false

mutual
/-- Well-formed store: file nodes have no children (as every tree the code
builds does; the subtree operations stop recursing at files). -/
def wfT : PTree → Bool
  | .node d cs => (d.isDir || isNilF cs) && wfF cs
def wfF : PForest → Bool
  | .nil => true
  | .cons c cs => wfT c && wfF cs
end

theorem wfF_getIdxF {cs : PForest} {i : Nat} {c : PTree}
    (hwf : wfF cs = true) (h : getIdxF cs i = some c) : wfT c = true := by
  induction cs using forest_ind generalizing i with
  | hnil => cases i <;> simp [getIdxF] at h
  | hcons c0 cs ih =>
    rcases Bool.and_eq_true_iff.mp hwf with ⟨h1, h2⟩
    cases i with
    | zero => simp [getIdxF] at h; exact h ▸ h1
    | succ n => exact ih h2 h

theorem update_render_name_expanded (d : NodeData) :
    (update_render_name d).expanded = d.expanded := rfl

theorem update_render_name_anonymized (d : NodeData) :
    (update_render_name d).anonymized = d.anonymized := rfl

theorem getIdxF_set_subtree_expandedF (b : Bool) :
    ∀ (cs : PForest) (i : Nat),
      getIdxF (set_subtree_expandedF b cs) i =
        (getIdxF cs i).map (set_subtree_expanded b) := by
  intro cs
  induction cs using forest_ind with
  | hnil => intro i; cases i <;> simp [set_subtree_expandedF, getIdxF]
  | hcons c cs ih =>
    intro i; cases i <;> simp [set_subtree_expandedF, getIdxF, ih]

/-- After `set_subtree_expanded b`, every directory of a well-formed subtree
carries `expanded = b`. -/
theorem set_subtree_expanded_all (b : Bool) :
    ∀ (q : List Nat) (t : PTree) (sub : PTree), wfT t = true →
      getAt (set_subtree_expanded b t) q = some sub →
      (dataOf sub).isDir = true → (dataOf sub).expanded = b := by
  intro q
  induction q with
  | nil =>
    intro t sub hwf hg hD
    cases t with
    | node d cs =>
      by_cases hd : d.isDir
      · simp only [set_subtree_expanded, hd, if_true, getAt,
          Option.some_inj] at hg
        rw [← hg] at hD ⊢
        simp [dataOf, update_render_name_expanded]
      · simp only [set_subtree_expanded, hd, Bool.false_eq_true, if_false,
          getAt, Option.some_inj] at hg
        rw [← hg] at hD
        simp [dataOf, hd] at hD
  | cons i q ih =>
    intro t sub hwf hg hD
    cases t with
    | node d cs =>
      by_cases hd : d.isDir
      · simp only [set_subtree_expanded, hd, if_true, getAt,
          getIdxF_set_subtree_expandedF] at hg
        rcases hwft : getIdxF cs i with _ | c
        · rw [hwft] at hg; simp at hg
        · rw [hwft] at hg
          simp only [Option.map_some'] at hg
          have hwfc : wfT c = true := by
            cases hw2 : wfF cs
            · simp [wfT, hw2] at hwf
            · exact wfF_getIdxF hw2 hwft
          exact ih c sub hwfc hg hD
      · simp only [set_subtree_expanded, hd, Bool.false_eq_true, if_false] at hg
        have hnil : isNilF cs = true := by
          simp [wfT, hd] at hwf
          exact hwf.1
        cases cs with
        | nil => simp [getAt, getIdxF] at hg
        | cons c0 cs0 => simp [isNilF] at hnil

theorem getIdxF_anonymize_subtreeF (gen : Nat → String) :
    ∀ (cs : PForest) (k i : Nat), ∃ k',
      getIdxF (anonymize_subtreeF gen k cs).1 i =
        (getIdxF cs i).map (fun c => (anonymize_subtree gen k' c).1) := by
  intro cs
  induction cs using forest_ind with
  | hnil => intro k i; exact ⟨k, by cases i <;> simp [anonymize_subtreeF, getIdxF]⟩
  | hcons c cs ih =>
    intro k i
    cases i with
    | zero => exact ⟨k, by simp [anonymize_subtreeF, getIdxF]⟩
    | succ n =>
      rcases ih (anonymize_subtree gen k c).2 n with ⟨k', hk⟩
      exact ⟨k', by simp [anonymize_subtreeF, getIdxF, hk]⟩

/-- After `anonymize_subtree`, every directory of a well-formed subtree has
its *own* `anonymized` flag inverted (not the clicked node's propagated). -/
theorem anonymize_subtree_own (gen : Nat → String) :
    ∀ (q : List Nat) (k : Nat) (t : PTree) (sub sub' : PTree),
      wfT t = true → getAt t q = some sub →
      getAt (anonymize_subtree gen k t).1 q = some sub' →
      (dataOf sub).isDir = true →
      (dataOf sub').anonymized = !(dataOf sub).anonymized := by
  intro q
  induction q with
  | nil =>
    intro k t sub sub' hwf hg hg' hD
    cases t with
    | node d cs =>
      simp only [getAt, Option.some_inj] at hg
      subst hg
      simp only [dataOf] at hD
      simp only [anonymize_subtree, hD, if_true, getAt, Option.some_inj] at hg'
      rw [← hg']
      simp [dataOf, update_render_name_anonymized]
  | cons i q ih =>
    intro k t sub sub' hwf hg hg' hD
    cases t with
    | node d cs =>
      by_cases hd : d.isDir
      · simp only [anonymize_subtree, hd, if_true, getAt] at hg'
        rcases getIdxF_anonymize_subtreeF gen cs
          (if !d.anonymized then k + 1 else k) i with ⟨k', hk⟩
        rw [hk] at hg'
        simp only [getAt] at hg
        rcases hidx : getIdxF cs i with _ | c
        · rw [hidx] at hg; simp at hg
        · rw [hidx] at hg hg'
          simp only [Option.map_some'] at hg'
          have hwfc : wfT c = true := by
            cases hw2 : wfF cs
            · simp [wfT, hw2] at hwf
            · exact wfF_getIdxF hw2 hidx
          exact ih k' c sub sub' hwfc hg hg' hD
      · simp only [anonymize_subtree, hd, Bool.false_eq_true, if_false] at hg'
        have hnil : isNilF cs = true := by
          simp [wfT, hd] at hwf
          exact hwf.1
        cases cs with
        | nil => simp [getAt, getIdxF] at hg
        | cons c0 cs0 => simp [isNilF] at hnil

/-- The C6 concrete tree: clicked directory `/r` currently not anonymized,
with a child directory `/r/c` currently anonymized (display name `X1`). -/
def c6tree : PTree :=
  .node (mkDirNode "/r" 0 true)
    (.cons (.node {mkDirNode "/r/c" 0 false with
      anonymized := true, displayName := "X1", renderName := "X1"} .nil) .nil)

/-- Counterexample to C6 as stated: after `anonymize_subtree` on the clicked
node `/r` (anonymized: false → true), the descendant directory `/r/c` holds
`anonymized = false` — not the clicked node's resulting `true`: each
descendant inverted its own flag. -/
theorem claim_C6_counterexample :
    (dataOf (anonymize_subtree (fun _ => "GEN") 0 c6tree).1).anonymized = true ∧
      (getAt (anonymize_subtree (fun _ => "GEN") 0 c6tree).1 [0]).map
        (fun s => (dataOf s).anonymized) = some false := by
  refine ⟨by decide, by decide⟩

/-- Claim C6 as amended: the subtree *expand* operation behaves as claimed —
it inverts the clicked directory's state and assigns that same boolean to
every directory in the subtree; the subtree *anonymize* operation instead
inverts each directory descendant's own `anonymized` flag independently, so
descendants need not end up equal to the clicked node. -/
theorem claim_C6 :
    (∀ (t : PTree) (q : List Nat) (sub : PTree), wfT t = true →
      (dataOf t).isDir = true →
      getAt (toggle_subtree t) q = some sub → (dataOf sub).isDir = true →
      (dataOf sub).expanded = !(dataOf t).expanded) ∧
    (∀ (gen : Nat → String) (k : Nat) (t : PTree) (q : List Nat)
      (sub sub' : PTree), wfT t = true → getAt t q = some sub →
      getAt (anonymize_subtree gen k t).1 q = some sub' →
      (dataOf sub).isDir = true →
      (dataOf sub').anonymized = !(dataOf sub).anonymized) := by
  constructor
  · intro t q sub hwf hD hg hDs
    rw [toggle_subtree, if_pos hD] at hg
    exact set_subtree_expanded_all (!(dataOf t).expanded) q t sub hwf hg hDs
  · intro gen k t q sub sub' hwf hg hg' hDs
    exact anonymize_subtree_own gen q k t sub sub' hwf hg hg' hDs

/-- The child of `c6tree` (anonymized directory, pseudonym `X1`). -/
def c6child : PTree :=
  .node {mkDirNode "/r/c" 0 false with
    anonymized := true, displayName := "X1", renderName := "X1"} .nil

/-- `c6child` after `anonymize_subtree` reverted its own flag. -/
def c6childAfter : PTree :=
  .node {mkDirNode "/r/c" 0 false with
    anonymized := false, displayName := "c", renderName := "c"} .nil

/-- Witness for C6 at the concrete tree: both halves of the theorem applied
at `/r`'s child directory. -/
theorem claim_C6_witness :
    (dataOf c6child).expanded = !(dataOf c6tree).expanded ∧
      (dataOf c6childAfter).anonymized = !(dataOf c6child).anonymized :=
  ⟨claim_C6.1 c6tree [0] c6child (by decide) (by decide) (by decide) (by decide),
   claim_C6.2 (fun _ => "GEN") 0 c6tree [0] c6child c6childAfter
     (by decide) (by decide) (by decide) (by decide)⟩

/-! ### Claim C5 -/

mutual
/-- Every directory node in the tree has at least one child. -/
def dirsNonemptyT : PTree → Bool
  | .node d cs => (!d.isDir || !isNilF cs) && dirsNonemptyF cs
def dirsNonemptyF : PForest → Bool
  | .nil => true
  | .cons c cs => dirsNonemptyT c && dirsNonemptyF cs
end

theorem dirsNonemptyF_getIdxF {cs : PForest} {i : Nat} {c : PTree}
    (hne : dirsNonemptyF cs = true) (h : getIdxF cs i = some c) :
    dirsNonemptyT c = true := by
  induction cs using forest_ind generalizing i with
  | hnil => cases i <;> simp [getIdxF] at h
  | hcons c0 cs ih =>
    rcases Bool.and_eq_true_iff.mp hne with ⟨h1, h2⟩
    cases i with
    | zero => simp [getIdxF] at h; exact h ▸ h1
    | succ n => exact ih h2 h

theorem dirsNonempty_getAt :
    ∀ (q : List Nat) (t : PTree) (sub : PTree), dirsNonemptyT t = true →
      getAt t q = some sub → dirsNonemptyT sub = true := by
  intro q
  induction q with
  | nil =>
    intro t sub h hg
    simp only [getAt, Option.some_inj] at hg
    exact hg ▸ h
  | cons i q ih =>
    intro t sub h hg
    cases t with
    | node d cs =>
      simp only [getAt] at hg
      rcases hidx : getIdxF cs i with _ | c
      · rw [hidx] at hg; simp at hg
      · rw [hidx] at hg
        have h2 : dirsNonemptyF cs = true := (Bool.and_eq_true_iff.mp h).2
        exact ih c sub (dirsNonemptyF_getIdxF h2 hidx) hg

theorem isNilF_calcForest : ∀ cs : PForest, isNilF (calcForest cs).1 = isNilF cs := by
  intro cs
  induction cs using forest_ind with
  | hnil => rfl
  | hcons c cs ih =>
    by_cases hc : countedChild c <;> simp [calcForest, hc, isNilF]

mutual
theorem dirsNonempty_calcT :
    ∀ t : PTree, dirsNonemptyT (calculate_token_count t).1 = dirsNonemptyT t
  | .node d cs => by
    have ihF := dirsNonempty_calcF cs
    by_cases hd : d.isDir <;>
      simp [calculate_token_count, hd, dirsNonemptyT, isNilF_calcForest, ihF]
theorem dirsNonempty_calcF :
    ∀ cs : PForest, dirsNonemptyF (calcForest cs).1 = dirsNonemptyF cs
  | .nil => rfl
  | .cons c cs => by
    have ihT := dirsNonempty_calcT c
    have ihF := dirsNonempty_calcF cs
    by_cases hc : countedChild c <;> simp [calcForest, hc, dirsNonemptyF, ihT, ihF]
end

theorem dirsNonemptyF_ofListF (l : List PTree)
    (h : ∀ c ∈ l, dirsNonemptyT c = true) : dirsNonemptyF (ofListF l) = true := by
  induction l with
  | nil => rfl
  | cons c cs ih =>
    simp only [ofListF, dirsNonemptyF, Bool.and_eq_true_iff]
    exact ⟨h c (by simp), ih fun x hx => h x (by simp [hx])⟩

theorem isNilF_ofListF (l : List PTree) : isNilF (ofListF l) = l.isEmpty := by
  cases l <;> rfl

mutual
theorem buildE_good (tok : String → Nat) (flt : FileFilter) :
    ∀ (e : FSEntry) (depth : Nat) (cur : String) (c : PTree),
      c ∈ (buildE tok flt depth cur e).1 → dirsNonemptyT c = true
  | .file n content, depth, cur, c => by
    intro hc
    by_cases hig : is_ignored flt n
    · simp [buildE, hig] at hc
    · simp only [buildE, hig, Bool.false_eq_true, if_false, List.mem_singleton] at hc
      subst hc
      simp [dirsNonemptyT, newTreeNode, dirsNonemptyF, isNilF]
  | .dirUnreadable n, depth, cur, c => by
    intro hc
    by_cases hig : is_ignored flt n <;> simp [buildE, hig] at hc
  | .dir n es, depth, cur, c => by
    intro hc
    by_cases hig : is_ignored flt n
    · simp [buildE, hig] at hc
    · by_cases hdep : 10 < depth + 1
      · simp [buildE, hig, hdep] at hc
      · by_cases hemp : (buildF tok flt (depth + 1) (cur ++ "/" ++ n) es).1.isEmpty
        · simp [buildE, hig, hdep, hemp] at hc
        · simp only [buildE, hig, Bool.false_eq_true, if_false, hdep, hemp,
            List.mem_singleton] at hc
          subst hc
          simp only [dirsNonemptyT, Bool.and_eq_true_iff]
          constructor
          · have hne : (buildF tok flt (depth + 1) (cur ++ "/" ++ n) es).1 ≠ [] := by
              simpa [List.isEmpty_iff] using hemp
            have h2 : (insSort child_le
                (buildF tok flt (depth + 1) (cur ++ "/" ++ n) es).1).isEmpty = false := by
              simp [List.isEmpty_iff, insSort_ne_nil child_le hne]
            simp [newTreeNode, isNilF_ofListF, h2]
          · apply dirsNonemptyF_ofListF
            intro x hx
            have hmem := (insSort_perm child_le _).mem_iff.mp hx
            exact buildF_good tok flt es (depth + 1) (cur ++ "/" ++ n) x hmem
theorem buildF_good (tok : String → Nat) (flt : FileFilter) :
    ∀ (es : FSList) (depth : Nat) (cur : String) (c : PTree),
      c ∈ (buildF tok flt depth cur es).1 → dirsNonemptyT c = true
  | .nil, depth, cur, c => by intro hc; simp [buildF] at hc
  | .cons e es, depth, cur, c => by
    intro hc
    simp only [buildF, List.mem_append] at hc
    rcases hc with h | h
    · exact buildE_good tok flt e depth cur c h
    · exact buildF_good tok flt es depth cur c h
end

/-- Claim C5 as amended: `build_tree` never attaches a childless directory —
every non-root directory node present in the built tree has at least one
child (a filtered directory with zero surviving descendants is pruned, not
created with an empty child list). -/
theorem claim_C5_amended (tok : String → Nat) (flt : FileFilter)
    (rootPath : String) (entries : FSList) (q : List Nat) (sub : PTree)
    (hg : getAt (build_tree tok flt rootPath entries).1 q = some sub)
    (hq : q ≠ []) (hD : (dataOf sub).isDir = true) :
    isNilF (childrenOf sub) = false := by
  by_cases hemp : (buildF tok flt 0 rootPath
      (ofListFS (insSort fsNameLE (toListFS (fsSortAllF entries))))).1.isEmpty
  · exfalso
    cases q with
    | nil => exact hq rfl
    | cons i q =>
      simp only [build_tree, hemp, if_true, calculate_token_count,
        newTreeNode, if_pos, calcForest, getAt, getIdxF] at hg
      exact Option.noConfusion hg
  · have hgood : dirsNonemptyT (build_tree tok flt rootPath entries).1 = true := by
      simp only [build_tree, hemp, Bool.false_eq_true, if_false]
      rw [dirsNonempty_calcT]
      simp only [dirsNonemptyT, Bool.and_eq_true_iff]
      constructor
      · have hne : (buildF tok flt 0 rootPath
            (ofListFS (insSort fsNameLE (toListFS (fsSortAllF entries))))).1 ≠ [] := by
          simpa [List.isEmpty_iff] using hemp
        have h2 : (insSort child_le (buildF tok flt 0 rootPath
            (ofListFS (insSort fsNameLE (toListFS (fsSortAllF entries))))).1).isEmpty
            = false := by
          simp [List.isEmpty_iff, insSort_ne_nil child_le hne]
        simp [newTreeNode, isNilF_ofListF, h2]
      · apply dirsNonemptyF_ofListF
        intro x hx
        have hmem := (insSort_perm child_le _).mem_iff.mp hx
        exact buildF_good tok flt _ 0 rootPath x hmem
    have hsub := dirsNonempty_getAt q _ sub hgood hg
    cases sub with
    | node d cs =>
      simp only [dirsNonemptyT, Bool.and_eq_true_iff] at hsub
      rcases hsub with ⟨h1, _⟩
      simp only [dataOf] at hD
      simp only [childrenOf]
      rcases Bool.or_eq_true_iff.mp h1 with h | h
      · rw [hD] at h; simp at h
      · simpa using h

/-- The C5 filesystem: a directory `emptyd` passing the filter but with no
surviving descendants, and a 2-character file `a.py`. -/
def c5fs : FSList :=
  .cons (.dir "emptyd" .nil) (.cons (.file "a.py" (some "xy")) .nil)

/-- Counterexample to C5 as stated: the zero-descendant directory `emptyd`
(which passes the filter and the depth limit) is absent from the built tree's
children and from the path index — it is pruned, not created empty. -/
theorem claim_C5_counterexample :
    ¬("/r/emptyd" ∈
        (build_tree String.length ⟨IGNORED_PATTERNS, ALLOWED_EXTENSIONS⟩
          "/r" c5fs).2) ∧
      (build_tree String.length ⟨IGNORED_PATTERNS, ALLOWED_EXTENSIONS⟩
          "/r" c5fs).2 = ["/r", "/r/a.py"] ∧
      (toListF (childrenOf
          (build_tree String.length ⟨IGNORED_PATTERNS, ALLOWED_EXTENSIONS⟩
            "/r" c5fs).1)).map (fun c => (dataOf c).path) = ["/r/a.py"] := by
  refine ⟨by decide, by decide, by decide⟩

/-- A filesystem whose directory `d` does have a surviving descendant. -/
def c5dirfs : FSList :=
  .cons (.dir "d" (.cons (.file "a.py" (some "xy")) .nil)) .nil

/-- The subtree `build_tree` attaches for `d`. -/
def c5sub : PTree :=
  .node (mkDirNode "/r/d" 2 false)
    (.cons (.node (mkFileNode "/r/d/a.py" 2 false) .nil) .nil)

/-- Witness for the amended C5: the attached directory `d` indeed has a
non-empty child list. -/
theorem claim_C5_amended_witness : isNilF (childrenOf c5sub) = false :=
  claim_C5_amended String.length ⟨IGNORED_PATTERNS, ALLOWED_EXTENSIONS⟩
    "/r" c5dirfs [0] c5sub (by decide) (by decide) (by decide)

/-! ### Claim C9 -/

mutual
/-- The multiset of user views (path + every field except the token count) of
all nodes of a tree/forest. -/
def userMT : PTree → Multiset UserView
  | .node d cs => userOf d ::ₘ userMF cs
def userMF : PForest → Multiset UserView
  | .nil => 0
  | .cons c cs => userMT c + userMF cs
end

theorem userMF_modifyIdxF_congr {f : PTree → PTree}
    (hf : ∀ c, userMT (f c) = userMT c) :
    ∀ (cs : PForest) (i : Nat), userMF (modifyIdxF cs i f) = userMF cs := by
  intro cs
  induction cs using forest_ind with
  | hnil => intro i; cases i <;> rfl
  | hcons c cs ih => intro i; cases i <;> simp [modifyIdxF, userMF, hf, ih]

theorem userMF_modifyIdxF_add_or {f : PTree → PTree} {X : Multiset UserView}
    (hf : ∀ c, userMT (f c) = userMT c + X ∨ userMT (f c) = userMT c) :
    ∀ (cs : PForest) (i : Nat),
      userMF (modifyIdxF cs i f) = userMF cs + X ∨
        userMF (modifyIdxF cs i f) = userMF cs := by
  intro cs
  induction cs using forest_ind with
  | hnil => intro i; right; cases i <;> rfl
  | hcons c cs ih =>
    intro i
    cases i with
    | zero =>
      rcases hf c with h | h
      · left
        simp [modifyIdxF, userMF, h, add_assoc, add_comm, add_left_comm]
      · right
        simp [modifyIdxF, userMF, h]
    | succ n =>
      rcases ih n with h | h
      · left
        simp [modifyIdxF, userMF, h, add_assoc]
      · right
        simp [modifyIdxF, userMF, h]

theorem userMF_modifyIdxF_le {f : PTree → PTree}
    (hf : ∀ c, userMT (f c) ≤ userMT c) :
    ∀ (cs : PForest) (i : Nat), userMF (modifyIdxF cs i f) ≤ userMF cs := by
  intro cs
  induction cs using forest_ind with
  | hnil => intro i; cases i <;> simp [modifyIdxF]
  | hcons c cs ih =>
    intro i
    cases i with
    | zero =>
      simp only [modifyIdxF, userMF]
      exact add_le_add_right (hf c) _
    | succ n =>
      simp only [modifyIdxF, userMF]
      exact add_le_add_left (ih n) _

theorem userM_modifyAt_congr {f : PTree → PTree}
    (hf : ∀ s, userMT (f s) = userMT s) :
    ∀ (p : List Nat) (t : PTree), userMT (modifyAt t p f) = userMT t := by
  intro p
  induction p with
  | nil => intro t; cases t with | node d cs => exact hf _
  | cons i p ih =>
    intro t
    cases t with
    | node d cs =>
      simp only [modifyAt, userMT]
      rw [userMF_modifyIdxF_congr (fun c => ih c)]

theorem userM_modifyAt_add_or {f : PTree → PTree} {X : Multiset UserView}
    (hf : ∀ s, userMT (f s) = userMT s + X) :
    ∀ (p : List Nat) (t : PTree),
      userMT (modifyAt t p f) = userMT t + X ∨
        userMT (modifyAt t p f) = userMT t := by
  intro p
  induction p with
  | nil => intro t; left; cases t with | node d cs => exact hf _
  | cons i p ih =>
    intro t
    cases t with
    | node d cs =>
      simp only [modifyAt, userMT]
      rcases userMF_modifyIdxF_add_or (fun c => ih c) cs i with h | h
      · left; rw [h, Multiset.cons_add]
      · right; rw [h]

theorem userM_modifyAt_le {f : PTree → PTree}
    (hf : ∀ s, userMT (f s) ≤ userMT s) :
    ∀ (p : List Nat) (t : PTree), userMT (modifyAt t p f) ≤ userMT t := by
  intro p
  induction p with
  | nil => intro t; cases t with | node d cs => exact hf _
  | cons i p ih =>
    intro t
    cases t with
    | node d cs =>
      simp only [modifyAt, userMT]
      exact Multiset.cons_le_cons _ (userMF_modifyIdxF_le (fun c => ih c) cs i)

theorem userMF_modifyIdxF_point {f : PTree → PTree} {X : Multiset UserView} :
    ∀ (cs : PForest) (i : Nat) (c : PTree), getIdxF cs i = some c →
      userMT (f c) = userMT c + X →
      userMF (modifyIdxF cs i f) = userMF cs + X := by
  intro cs
  induction cs using forest_ind with
  | hnil => intro i c hg; cases i <;> simp [getIdxF] at hg
  | hcons c0 cs ih =>
    intro i c hg hx
    cases i with
    | zero =>
      simp only [getIdxF, Option.some_inj] at hg
      subst hg
      simp [modifyIdxF, userMF, hx, add_assoc, add_comm, add_left_comm]
    | succ n =>
      simp only [getIdxF] at hg
      simp [modifyIdxF, userMF, ih n c hg hx, add_assoc]

theorem userM_modifyAt_point {f : PTree → PTree} {X : Multiset UserView} :
    ∀ (p : List Nat) (t : PTree) (sub : PTree), getAt t p = some sub →
      userMT (f sub) = userMT sub + X →
      userMT (modifyAt t p f) = userMT t + X := by
  intro p
  induction p with
  | nil =>
    intro t sub hg hx
    simp only [getAt, Option.some_inj] at hg
    subst hg
    cases t with | node d cs => exact hx
  | cons i p ih =>
    intro t sub hg hx
    cases t with
    | node d cs =>
      simp only [getAt] at hg
      rcases hidx : getIdxF cs i with _ | c
      · rw [hidx] at hg; simp at hg
      · rw [hidx] at hg
        simp only [modifyAt, userMT]
        rw [userMF_modifyIdxF_point cs i c hidx (ih c sub hg hx),
          Multiset.cons_add]

theorem userM_addUp : ∀ (p : List Nat) (t : PTree) (delta : Int),
    userMT (addUp t p delta) = userMT t := by
  intro p
  induction p with
  | nil =>
    intro t delta
    cases t with | node d cs => simp [addUp, userMT, userOf]
  | cons i p ih =>
    intro t delta
    cases t with
    | node d cs =>
      simp only [addUp, userMT]
      rw [userMF_modifyIdxF_congr (fun c => ih c delta)]
      simp [userOf]

theorem userM_addUpParent : ∀ (p : List Nat) (t : PTree) (delta : Int),
    userMT (addUpParent t p delta) = userMT t := by
  intro p
  induction p with
  | nil => intro t delta; cases t with | node d cs => rfl
  | cons i p ih =>
    intro t delta
    cases t with
    | node d cs =>
      cases p with
      | nil => simp [addUpParent, userMT, userOf]
      | cons j q =>
        simp only [addUpParent, userMT]
        rw [userMF_modifyIdxF_congr (fun c => ih c delta)]
        simp [userOf]

theorem userMF_ofListF (l : List PTree) :
    userMF (ofListF l) = (l.map userMT).sum := by
  induction l with
  | nil => rfl
  | cons c cs ih => simp [ofListF, userMF, ih]

theorem userMF_toListF : ∀ cs : PForest, ((toListF cs).map userMT).sum = userMF cs := by
  intro cs
  induction cs using forest_ind with
  | hnil => rfl
  | hcons c cs ih => simp [toListF, userMF, ih]

theorem userMT_sort_children (s : PTree) : userMT (sort_children s) = userMT s := by
  cases s with
  | node d cs =>
    simp only [sort_children, userMT, userMF_ofListF]
    rw [List.Perm.sum_eq (List.Perm.map userMT (insSort_perm child_le (toListF cs))),
      userMF_toListF]

theorem userMF_appendF : ∀ (cs : PForest) (c : PTree),
    userMF (appendF cs c) = userMF cs + userMT c := by
  intro cs
  induction cs using forest_ind with
  | hnil => intro c; simp [appendF, userMF]
  | hcons c0 cs ih => intro c; simp [appendF, userMF, ih, add_assoc]

theorem userMF_removeIdxF_le : ∀ (cs : PForest) (i : Nat),
    userMF (removeIdxF cs i) ≤ userMF cs := by
  intro cs
  induction cs using forest_ind with
  | hnil => intro i; cases i <;> simp [removeIdxF]
  | hcons c cs ih =>
    intro i
    cases i with
    | zero =>
      simp only [removeIdxF, userMF]
      exact le_add_self
    | succ n =>
      simp only [removeIdxF, userMF]
      exact add_le_add_left (ih n) _

theorem scan_add_userM (tok : String → Nat) (isdir : String → Bool)
    (fs : String → Option String) (t : PTree) (pth : String) :
    userMT (scan_add tok isdir fs t pth) =
        userMT t + {userOf (newTreeNode pth (isdir pth))} ∨
      userMT (scan_add tok isdir fs t pth) = userMT t := by
  rcases h1 : findPosT (pyDirname pth) t with _ | pp
  · right; simp [scan_add, h1]
  · rcases h2 : getAt t pp with _ | parent
    · right; simp [scan_add, h1, h2]
    · by_cases h3 : (dataOf parent).isDir && (dataOf parent).expanded
      · have key : ∀ (nd : NodeData),
            userOf nd = userOf (newTreeNode pth (isdir pth)) →
            ∀ t1, userMT t1 = userMT t →
            (userMT (modifyAt t1 pp (fun s => sort_children
              (.node (dataOf s) (appendF (childrenOf s) (.node nd .nil))))) =
                userMT t + {userOf (newTreeNode pth (isdir pth))} ∨
              userMT (modifyAt t1 pp (fun s => sort_children
                (.node (dataOf s) (appendF (childrenOf s) (.node nd .nil))))) =
                userMT t) := by
          intro nd hnd t1 ht1
          have hforall : ∀ s, userMT (sort_children
              (.node (dataOf s) (appendF (childrenOf s) (.node nd .nil)))) =
              userMT s + {userOf (newTreeNode pth (isdir pth))} := by
            intro s
            rw [userMT_sort_children]
            cases s with
            | node d0 cs0 =>
              simp only [userMT, dataOf, childrenOf, userMF_appendF, userMF, hnd]
              rw [Multiset.cons_add]
              rfl
          rcases userM_modifyAt_add_or hforall pp t1 with h | h
          · left; rw [h, ht1]
          · right; rw [h, ht1]
        have ht1 : ∀ (c : Prop) (inst : Decidable c) (delta : Int),
            userMT (@ite _ c inst (addUp t pp delta) t) = userMT t := by
          intro c inst delta
          split
          · exact userM_addUp pp t delta
          · rfl
        simp only [scan_add, h1, h2, h3, if_true]
        refine key _ ?_ _ (ht1 _ _ _)
        by_cases hd : isdir pth <;> simp [hd, userOf, newTreeNode]
      · right; simp [scan_add, h1, h2, h3]

theorem scan_remove_userM (t : PTree) (pth : String) :
    userMT (scan_remove t pth) ≤ userMT t := by
  rcases h1 : findPosT pth t with _ | pos
  · simp [scan_remove, h1]
  · rcases h2 : getAt t pos with _ | sub
    · simp [scan_remove, h1, h2]
    · rcases h3 : splitLast pos with _ | qi
      · simp [scan_remove, h1, h2, h3]
      · have hle : userMT (modifyAt t qi.1 (fun s =>
            PTree.node (dataOf s) (removeIdxF (childrenOf s) qi.2))) ≤ userMT t := by
          apply userM_modifyAt_le
          intro s
          cases s with
          | node d0 cs0 =>
            simp only [userMT, dataOf, childrenOf]
            exact Multiset.cons_le_cons _ (userMF_removeIdxF_le cs0 qi.2)
        simp only [scan_remove, h1, h2, h3]
        split
        · rw [userM_addUp]
          exact hle
        · exact hle

theorem scan_modified_userM (tok : String → Nat) (fs : String → Option String)
    (t : PTree) (pth : String) :
    userMT (scan_modified tok fs t pth) = userMT t := by
  rcases h1 : findPosT pth t with _ | pos
  · simp [scan_modified, h1]
  · rcases h2 : getAt t pos with _ | sub
    · simp [scan_modified, h1, h2]
    · by_cases h3 : !(dataOf sub).isDir && !(dataOf sub).disabled
      · have heq : userMT (modifyAt t pos (withData
            {dataOf sub with tokenCount := (((fs pth).map tok).getD 0 : Nat)}))
            = userMT t := by
          have hx : userMT (withData
              {dataOf sub with tokenCount := (((fs pth).map tok).getD 0 : Nat)} sub)
              = userMT sub + 0 := by
            cases sub with
            | node d0 cs0 => simp [withData, userMT, dataOf, userOf]
          have := userM_modifyAt_point pos t sub h2 hx
          simpa using this
        simp only [scan_modified, h1, h2, h3, if_true]
        split
        · exact heq
        · rw [userM_addUpParent]
          exact heq
      · simp [scan_modified, h1, h2, h3]

/-- Every entry of `add` is the user view of a freshly constructed
`TreeNode(path, is_dir)` — default expansion/anonymization/enablement and
basename display names — whose path comes from the cycle's `added` list. -/
def freshScanEntries (isdir : String → Bool) (A : List String)
    (add : Multiset UserView) : Prop :=
  ∀ e ∈ add, e = userOf (newTreeNode e.path (isdir e.path)) ∧ e.path ∈ A

theorem scan_adds_userM (tok : String → Nat) (isdir : String → Bool)
    (fs : String → Option String) :
    ∀ (A : List String) (t : PTree), ∃ add : Multiset UserView,
      freshScanEntries isdir A add ∧
        userMT (A.foldl (scan_add tok isdir fs) t) = userMT t + add := by
  intro A
  induction A with
  | nil =>
    intro t
    exact ⟨0, fun e he => absurd he (Multiset.not_mem_zero e), by simp⟩
  | cons pth A ih =>
    intro t
    rcases ih (scan_add tok isdir fs t pth) with ⟨add, hfresh, heq⟩
    rcases scan_add_userM tok isdir fs t pth with h | h
    · refine ⟨{userOf (newTreeNode pth (isdir pth))} + add, ?_, ?_⟩
      · intro e he
        rcases Multiset.mem_add.mp he with h1 | h2
        · have he2 := Multiset.mem_singleton.mp h1
          subst he2
          exact ⟨rfl, by simp [userOf, newTreeNode]⟩
        · rcases hfresh e h2 with ⟨hf1, hf2⟩
          exact ⟨hf1, by simp [hf2]⟩
      · simp only [List.foldl_cons, heq, h]
        rw [add_assoc]
    · refine ⟨add, ?_, ?_⟩
      · intro e he
        rcases hfresh e he with ⟨hf1, hf2⟩
        exact ⟨hf1, by simp [hf2]⟩
      · simp only [List.foldl_cons, heq, h]

theorem scan_removes_userM :
    ∀ (R : List String) (t : PTree),
      userMT (R.foldl scan_remove t) ≤ userMT t := by
  intro R
  induction R with
  | nil => intro t; exact le_refl _
  | cons pth R ih =>
    intro t
    exact le_trans (ih (scan_remove t pth)) (scan_remove_userM t pth)

theorem scan_mods_userM (tok : String → Nat) (fs : String → Option String) :
    ∀ (M : List String) (t : PTree),
      userMT (M.foldl (scan_modified tok fs) t) = userMT t := by
  intro M
  induction M with
  | nil => intro t; rfl
  | cons pth M ih =>
    intro t
    rw [List.foldl_cons, ih, scan_modified_userM]

/-- One scan cycle only adds freshly-created default nodes (at paths from the
`added` list), removes nodes, and rewrites token counts: the multiset of user
views of the post-cycle tree is contained in the pre-cycle multiset plus
fresh default-state entries. -/
theorem scan_cycle_userM_le (tok : String → Nat) (isdir : String → Bool)
    (fs : String → Option String) (t : PTree)
    (added removed modified : List String) :
    ∃ add : Multiset UserView, freshScanEntries isdir added add ∧
      userMT (scan_cycle tok isdir fs t added removed modified) ≤
        userMT t + add := by
  rcases scan_adds_userM tok isdir fs added t with ⟨add, hfresh, heq⟩
  refine ⟨add, hfresh, ?_⟩
  simp only [scan_cycle]
  rw [scan_mods_userM]
  exact le_trans (scan_removes_userM removed _) (le_of_eq heq)

/-- Claim C9: a scan cycle leaves every surviving node's user state exactly
as it was.  For any cycle (any added/removed/modified path lists), if a node
of the pre-cycle tree and a node of the post-cycle tree carry the same path,
the post-cycle node's entire user view — `is_dir`, `expanded`, `anonymized`,
`disabled`, and all three names, everything but the token count — equals the
pre-cycle node's: the scanner only adds nodes, removes nodes, and updates
token counts, never writing any other field of a surviving node.

The two hypotheses hold for the store the code maintains: paths are globally
unique node keys (`path_to_node` is keyed by them), and an `added` path is
one present in the current filesystem snapshot but absent from the previous
one, while every tree node's path came from that previous snapshot or build —
so no `added` path is already the path of a node. -/
theorem claim_C9 (tok : String → Nat) (isdir : String → Bool)
    (fs : String → Option String) (t : PTree)
    (added removed modified : List String)
    (hdist : ∀ u ∈ userMT t, ∀ v ∈ userMT t, u.path = v.path → u = v)
    (hnew : ∀ p ∈ added, ∀ u ∈ userMT t, u.path ≠ p) :
    ∀ u ∈ userMT t,
      ∀ u' ∈ userMT (scan_cycle tok isdir fs t added removed modified),
        u'.path = u.path → u' = u := by
  intro u hu u' hu' hpath
  rcases scan_cycle_userM_le tok isdir fs t added removed modified with
    ⟨add, hfresh, hle⟩
  have hu'2 : u' ∈ userMT t + add := Multiset.mem_of_le hle hu'
  rcases Multiset.mem_add.mp hu'2 with h | h
  · exact hdist u' h u hu hpath
  · exfalso
    exact hnew u'.path (hfresh u' h).2 u hu hpath.symm

/-- The C9 concrete pre-cycle tree: expanded root with one enabled 5-token
file. -/
def c9tree : PTree :=
  .node (mkDirNode "/r" 5 true)
    (.cons (.node (mkFileNode "/r/a.txt" 5 false) .nil) .nil)

/-- The C9 cycle-time filesystem: `a.txt` now reads 7 characters and a new
3-character file `new.txt` has appeared. -/
def c9fs : String → Option String := fun p =>
  if p = "/r/a.txt" then some "1234567"
  else if p = "/r/new.txt" then some "abc" else none

/-- Witness for C9: a cycle that adds `/r/new.txt` and re-counts a modified
`/r/a.txt` (5 → 7 tokens) leaves the surviving file's user view exactly as
before — the two views are equal because only the token count moved. -/
theorem claim_C9_witness :
    userOf (mkFileNode "/r/a.txt" 7 false) =
      userOf (mkFileNode "/r/a.txt" 5 false) :=
  claim_C9 String.length (fun _ => false) c9fs c9tree
    ["/r/new.txt"] [] ["/r/a.txt"] (by decide) (by decide)
    (userOf (mkFileNode "/r/a.txt" 5 false)) (by decide)
    (userOf (mkFileNode "/r/a.txt" 7 false)) (by decide) (by decide)

/-! ### `build_tree` builds well-formed trees (files never get children),
justifying the well-formedness hypothesis of the subtree-operation claims. -/

theorem wfF_ofListF (l : List PTree) (h : ∀ c ∈ l, wfT c = true) :
    wfF (ofListF l) = true := by
  induction l with
  | nil => rfl
  | cons c cs ih =>
    simp only [ofListF, wfF, Bool.and_eq_true_iff]
    exact ⟨h c (by simp), ih fun x hx => h x (by simp [hx])⟩

mutual
theorem wf_calcT : ∀ t : PTree, wfT (calculate_token_count t).1 = wfT t
  | .node d cs => by
    have ihF := wf_calcF cs
    by_cases hd : d.isDir <;>
      simp [calculate_token_count, hd, wfT, isNilF_calcForest, ihF]
theorem wf_calcF : ∀ cs : PForest, wfF (calcForest cs).1 = wfF cs
  | .nil => rfl
  | .cons c cs => by
    have ihT := wf_calcT c
    have ihF := wf_calcF cs
    by_cases hc : countedChild c <;> simp [calcForest, hc, wfF, ihT, ihF]
end

mutual
theorem buildE_wf (tok : String → Nat) (flt : FileFilter) :
    ∀ (e : FSEntry) (depth : Nat) (cur : String) (c : PTree),
      c ∈ (buildE tok flt depth cur e).1 → wfT c = true
  | .file n content, depth, cur, c => by
    intro hc
    by_cases hig : is_ignored flt n
    · simp [buildE, hig] at hc
    · simp only [buildE, hig, Bool.false_eq_true, if_false,
        List.mem_singleton] at hc
      subst hc
      simp [wfT, newTreeNode, wfF, isNilF]
  | .dirUnreadable n, depth, cur, c => by
    intro hc
    by_cases hig : is_ignored flt n <;> simp [buildE, hig] at hc
  | .dir n es, depth, cur, c => by
    intro hc
    by_cases hig : is_ignored flt n
    · simp [buildE, hig] at hc
    · by_cases hdep : 10 < depth + 1
      · simp [buildE, hig, hdep] at hc
      · by_cases hemp : (buildF tok flt (depth + 1) (cur ++ "/" ++ n) es).1.isEmpty
        · simp [buildE, hig, hdep, hemp] at hc
        · simp only [buildE, hig, Bool.false_eq_true, if_false, hdep, hemp,
            List.mem_singleton] at hc
          subst hc
          simp only [wfT, Bool.and_eq_true_iff]
          refine ⟨by simp [newTreeNode], ?_⟩
          apply wfF_ofListF
          intro x hx
          have hmem := (insSort_perm child_le _).mem_iff.mp hx
          exact buildF_wf tok flt es (depth + 1) (cur ++ "/" ++ n) x hmem
theorem buildF_wf (tok : String → Nat) (flt : FileFilter) :
    ∀ (es : FSList) (depth : Nat) (cur : String) (c : PTree),
      c ∈ (buildF tok flt depth cur es).1 → wfT c = true
  | .nil, depth, cur, c => by intro hc; simp [buildF] at hc
  | .cons e es, depth, cur, c => by
    intro hc
    simp only [buildF, List.mem_append] at hc
    rcases hc with h | h
    · exact buildE_wf tok flt e depth cur c h
    · exact buildF_wf tok flt es depth cur c h
end

/-- Every tree `build_tree` returns is well-formed: file nodes are childless,
so the subtree operations' recursion (which stops at files) reaches every
node. -/
theorem build_tree_wf (tok : String → Nat) (flt : FileFilter)
    (rootPath : String) (entries : FSList) :
    wfT (build_tree tok flt rootPath entries).1 = true := by
  by_cases hemp : (buildF tok flt 0 rootPath
      (ofListFS (insSort fsNameLE (toListFS (fsSortAllF entries))))).1.isEmpty
  · simp [build_tree, hemp, wf_calcT, wfT, newTreeNode, wfF]
  · simp only [build_tree, hemp, Bool.false_eq_true, if_false]
    rw [wf_calcT]
    simp only [wfT, Bool.and_eq_true_iff]
    refine ⟨by simp [newTreeNode], ?_⟩
    apply wfF_ofListF
    intro x hx
    have hmem := (insSort_perm child_le _).mem_iff.mp hx
    exact buildF_wf tok flt _ 0 rootPath x hmem
